import Mathlib

/-!
Verification development for the DAP (Debug Adapter Protocol) session engine
of the `mcp-rust-debugger-example` repository (`src/rust-debugger.ts`).

The engine is embedded shallowly:

* the wire layer (`Content-Length` framing, `parseMessages`) is modelled over
  `List Char`, matching the JavaScript string buffer (`messageBuffer`), with
  `Buffer.byteLength` modelled as the sum of the UTF-8 sizes of the characters;
* `JSON.stringify` / `JSON.parse` (the platform serializer used by
  `sendRequest` and `parseMessages`) are modelled by an executable
  printer/parser pair over an inductive `Json` type;
* the request/response correlator (`sendRequest` + `handleMessage` + the
  30-second `setTimeout`) is modelled as a step function on an explicit
  correlator state, driven by a trace of events;
* the steady-state operations (`continue`, `stepOver`, `getVariables`,
  `setBreakpoint`, `terminate`) are modelled as pure functions of the
  session state and an adapter oracle that supplies each exchange's outcome,
  returning the operation result, the next state, and the transport I/O
  performed.
-/

/-! ### Decimal digits

`natChars n` is the usual base-10 rendering of a natural number, as produced
by JavaScript template interpolation of a number.  It is defined through a
fuel-indexed helper so that it reduces inside the kernel. -/

def digitChar : Nat → Char
  | 0 => '0' | 1 => '1' | 2 => '2' | 3 => '3' | 4 => '4'
  | 5 => '5' | 6 => '6' | 7 => '7' | 8 => '8' | 9 => '9'
  | _ => '*'

def natCharsAux : Nat → Nat → List Char
  | 0, n => [digitChar n]
  | fuel + 1, n =>
    if n < 10 then [digitChar n]
    else natCharsAux fuel (n / 10) ++ [digitChar (n % 10)]

def natChars (n : Nat) : List Char := natCharsAux n n

def digitVal (c : Char) : Nat := c.toNat - 48

/-- Value of a digit string, as computed by `parseInt(s, 10)`. -/
def digitsVal (ds : List Char) : Nat := ds.foldl (fun a c => a * 10 + digitVal c) 0

/-! ### JSON values

`Json` models the JavaScript values exchanged as DAP message bodies.  Numbers
are modelled as integers (DAP sequence numbers, line numbers and references
are integral), strings as lists of unicode scalars, and objects as ordered
key/value lists (JavaScript objects preserve insertion order and cannot hold
duplicate keys, so `JSON.stringify` never emits duplicates). -/

inductive Json where
  | null : Json
  | bool (b : Bool) : Json
  | num (n : Int) : Json
  | str (s : List Char) : Json
  | arr (elems : List Json) : Json
  | obj (members : List (List Char × Json)) : Json

def hexDigitChar : Nat → Char
  | 0 => '0' | 1 => '1' | 2 => '2' | 3 => '3' | 4 => '4'
  | 5 => '5' | 6 => '6' | 7 => '7' | 8 => '8' | 9 => '9'
  | 10 => 'a' | 11 => 'b' | 12 => 'c' | 13 => 'd' | 14 => 'e' | 15 => 'f'
  | _ => '*'

/-- The escape `JSON.stringify` applies to one character of a string literal:
quote and backslash get a backslash escape, the named control characters get
their short escapes, all other control characters get a `\uNNNN` escape, and
everything else passes through. -/
def escChar (c : Char) : List Char :=
  if c = '"' then ['\\', '"']
  else if c = '\\' then ['\\', '\\']
  else if c = '\n' then ['\\', 'n']
  else if c = '\r' then ['\\', 'r']
  else if c = '\t' then ['\\', 't']
  else if c = '\x08' then ['\\', 'b']
  else if c = '\x0c' then ['\\', 'f']
  else if c.toNat < 32 then
    ['\\', 'u', '0', '0', hexDigitChar (c.toNat / 16), hexDigitChar (c.toNat % 16)]
  else [c]

def escStr : List Char → List Char
  | [] => []
  | c :: t => escChar c ++ escStr t

def strLit (s : List Char) : List Char := '"' :: (escStr s ++ ['"'])

/-- Decimal rendering of a JavaScript (integral) number. -/
def intChars (n : Int) : List Char :=
  if n < 0 then '-' :: natChars n.natAbs else natChars n.toNat

/-- Comma-separated concatenation used between array elements and object
members of `JSON.stringify` output. -/
def joinComma : List (List Char) → List Char
  | [] => []
  | [x] => x
  | x :: y :: t => x ++ ',' :: joinComma (y :: t)

def litNull : List Char := ['n', 'u', 'l', 'l']
def litTrue : List Char := ['t', 'r', 'u', 'e']
def litFalse : List Char := ['f', 'a', 'l', 's', 'e']

/-- Model of `JSON.stringify` (default stringification: no replacer, no
spacing). -/
def stringify : Json → List Char
  | .null => litNull
  | .bool true => litTrue
  | .bool false => litFalse
  | .num n => intChars n
  | .str s => strLit s
  | .arr xs => '[' :: (joinComma (xs.attach.map fun x => stringify x.1) ++ [']'])
  | .obj ms =>
    '{' :: (joinComma (ms.attach.map fun kv => strLit kv.1.1 ++ ':' :: stringify kv.1.2) ++ ['}'])
decreasing_by
  · have h1 := List.sizeOf_lt_of_mem x.2
    simp only [Json.arr.sizeOf_spec]
    omega
  · have h1 := List.sizeOf_lt_of_mem kv.2
    have h2 : sizeOf kv.1.2 < sizeOf kv.1 := by
      obtain ⟨a, b⟩ := kv.1
      simp only [Prod.mk.sizeOf_spec]
      omega
    simp only [Json.obj.sizeOf_spec]
    omega

/-! ### JSON parsing

A model of `JSON.parse` restricted to the grammar the engine exchanges
(integral numbers; no fraction/exponent forms, which neither side emits).
The value parser is indexed by a fuel that only has to dominate the nesting
depth, so that every definition reduces inside the kernel; `jsonTop` below
instantiates it with the input length. -/

def hexVal (c : Char) : Nat :=
  if c.isDigit then c.toNat - 48
  else if 'a' ≤ c ∧ c ≤ 'f' then c.toNat - 87
  else if 'A' ≤ c ∧ c ≤ 'F' then c.toNat - 55
  else 0

def isHexDigit (c : Char) : Bool :=
  c.isDigit || ('a' ≤ c && c ≤ 'f') || ('A' ≤ c && c ≤ 'F')

def unescChar (c : Char) : Option Char :=
  if c = '"' then some '"'
  else if c = '\\' then some '\\'
  else if c = '/' then some '/'
  else if c = 'n' then some '\n'
  else if c = 'r' then some '\r'
  else if c = 't' then some '\t'
  else if c = 'b' then some '\x08'
  else if c = 'f' then some '\x0c'
  else none

/-- Parse the body of a JSON string literal (after the opening quote), up to
and including the closing quote; returns the decoded characters and the rest
of the input. -/
def parseStringBody : List Char → Option (List Char × List Char)
  | [] => none
  | '"' :: r => some ([], r)
  | '\\' :: 'u' :: a :: b :: c :: d :: r =>
    if isHexDigit a && isHexDigit b && isHexDigit c && isHexDigit d then
      (parseStringBody r).map fun p =>
        (Char.ofNat (((hexVal a * 16 + hexVal b) * 16 + hexVal c) * 16 + hexVal d) :: p.1, p.2)
    else none
  | '\\' :: e :: r =>
    (unescChar e).bind fun c => (parseStringBody r).map fun p => (c :: p.1, p.2)
  | c :: r => (parseStringBody r).map fun p => (c :: p.1, p.2)

/-- Parse a JSON (integral) number. -/
def parseNumber (input : List Char) : Option (Json × List Char) :=
  if input.head? = some '-' then
    let ds := input.tail.takeWhile Char.isDigit
    if ds.isEmpty then none
    else some (.num (-(digitsVal ds : Int)), input.tail.dropWhile Char.isDigit)
  else
    let ds := input.takeWhile Char.isDigit
    if ds.isEmpty then none
    else some (.num (digitsVal ds), input.dropWhile Char.isDigit)

/-- Parse the elements of a JSON array (after the opening bracket), up to and
including the closing bracket, given a parser `pj` for one value. -/
def parseElemsW (pj : List Char → Option (Json × List Char)) :
    Nat → List Char → Option (List Json × List Char)
  | 0, _ => none
  | f + 1, input =>
    if input.head? = some ']' then some ([], input.tail)
    else
      (pj input).bind fun vr =>
        if vr.2.head? = some ',' then
          (parseElemsW pj f vr.2.tail).map fun p => (vr.1 :: p.1, p.2)
        else if vr.2.head? = some ']' then some ([vr.1], vr.2.tail)
        else none

/-- Parse the members of a JSON object (after the opening brace), up to and
including the closing brace, given a parser `pj` for one value. -/
def parseMembersW (pj : List Char → Option (Json × List Char)) :
    Nat → List Char → Option (List (List Char × Json) × List Char)
  | 0, _ => none
  | f + 1, input =>
    if input.head? = some '}' then some ([], input.tail)
    else
      match input with
      | '"' :: r =>
        (parseStringBody r).bind fun kr =>
          if kr.2.head? = some ':' then
            (pj kr.2.tail).bind fun vr =>
              if vr.2.head? = some ',' then
                (parseMembersW pj f vr.2.tail).map fun p => ((kr.1, vr.1) :: p.1, p.2)
              else if vr.2.head? = some '}' then some ([(kr.1, vr.1)], vr.2.tail)
              else none
          else none
      | _ => none

/-- Fuel-indexed JSON value parser. -/
def parseJson : Nat → List Char → Option (Json × List Char)
  | 0, _ => none
  | f + 1, input =>
    if litNull.isPrefixOf input then some (.null, input.drop 4)
    else if litTrue.isPrefixOf input then some (.bool true, input.drop 4)
    else if litFalse.isPrefixOf input then some (.bool false, input.drop 5)
    else
      match input with
      | '"' :: r => (parseStringBody r).map fun p => (.str p.1, p.2)
      | '[' :: r => (parseElemsW (parseJson f) (r.length + 1) r).map fun p => (.arr p.1, p.2)
      | '{' :: r => (parseMembersW (parseJson f) (r.length + 1) r).map fun p => (.obj p.1, p.2)
      | _ =>
        if input.head? = some '-' || (input.head?.map Char.isDigit).getD false then
          parseNumber input
        else none

def isJsonWs (c : Char) : Bool := c = ' ' || c = '\t' || c = '\n' || c = '\r'

/-- Model of `JSON.parse` on a complete document: one value, followed only by
whitespace. -/
def jsonTop (s : List Char) : Option Json :=
  match parseJson (s.length + 1) s with
  | some (v, r) => if r.all isJsonWs then some v else none
  | none => none

/-! ### Round-trip lemmas for the JSON model -/

/-- The continuation after a serialized value never starts with a digit (it is
empty or starts with a separator/closer), which keeps number parsing
unambiguous. -/
def NoDigitStart (r : List Char) : Prop := ∀ c, r.head? = some c → c.isDigit = false

/-- Characters a serialized JSON value can start with. -/
def isOpenChar (c : Char) : Bool :=
  c = 'n' || c = 't' || c = 'f' || c = '"' || c = '[' || c = '{' || c = '-' || c.isDigit

/-! ### Frame codec

Translation of the wire layer of `rust-debugger.ts`: `sendRequest` builds
`Content-Length: <byteLength>\r\n\r\n<json>` frames, and `parseMessages`
scans the string buffer `messageBuffer` for complete frames.  The buffer is
modelled as `List Char` (JavaScript string positions); `Buffer.byteLength`
is modelled by `utf8Len`, the sum of the UTF-8 sizes of the characters — the
two agree exactly on ASCII data. -/

def crlfcrlf : List Char := ['\r', '\n', '\r', '\n']

def clPrefix : List Char :=
  ['C', 'o', 'n', 't', 'e', 'n', 't', '-', 'L', 'e', 'n', 'g', 't', 'h', ':', ' ']

/-- Model of `buffer.indexOf('\r\n\r\n')`: position of the first occurrence of
`pat`, if any. -/
def findSub (pat : List Char) : List Char → Option Nat
  | [] => if pat.isPrefixOf ([] : List Char) then some 0 else none
  | l@(_ :: t) => if pat.isPrefixOf l then some 0 else (findSub pat t).map (· + 1)

/-- Model of the header scan `/Content-Length: (\d+)/.exec(header)` followed by
`parseInt(..., 10)`: the first position where the literal is followed by at
least one digit, reading the maximal digit run there. -/
def extractCL : List Char → Option Nat
  | [] => none
  | h@(_ :: t) =>
    if clPrefix.isPrefixOf h then
      let ds := (h.drop 16).takeWhile Char.isDigit
      if ds.isEmpty then extractCL t else some (digitsVal ds)
    else extractCL t

/-- Fuel-indexed translation of the `parseMessages` loop: returns the buffer
left over and the contents of the complete frames extracted, in order.  An
invalid header (no `Content-Length` digits) discards the whole buffer and
stops, exactly like the `messageBuffer = ''; break` path of the source.  The
fuel only has to dominate the buffer length, since every extracted frame
consumes at least four characters; `parseLoop` instantiates it accordingly. -/
def parseLoopF : Nat → List Char → List Char × List (List Char)
  | 0, buf => (buf, [])
  | fuel + 1, buf =>
    match findSub crlfcrlf buf with
    | none => (buf, [])
    | some headerEnd =>
      match extractCL (buf.take headerEnd) with
      | none => ([], [])
      | some n =>
        if buf.length < headerEnd + 4 + n then (buf, [])
        else
          let content := (buf.drop (headerEnd + 4)).take n
          let rest := parseLoopF fuel (buf.drop (headerEnd + 4 + n))
          (rest.1, content :: rest.2)

/-- Model of `parseMessages` acting on a buffer. -/
def parseLoop (buf : List Char) : List Char × List (List Char) :=
  parseLoopF buf.length buf

/-- The header part of an encoded frame: `Content-Length: <n>`. -/
def clHeader (n : Nat) : List Char := clPrefix ++ natChars n

/-- Model of the frame encoding performed by `sendRequest`:
`Content-Length: <n>\r\n\r\n<content>`, with `n` the length stated in the
header. -/
def encodeFrameN (n : Nat) (c : List Char) : List Char :=
  clHeader n ++ (crlfcrlf ++ c)

/-- A well-formed frame states the exact character count of its content (the
ASCII case, where `Buffer.byteLength` and string length agree). -/
def encodeFrame (c : List Char) : List Char := encodeFrameN c.length c

/-! ### Incremental feeding

`feed` models one firing of the stdout `data` handler:
`messageBuffer += chunk; this.parseMessages()`, recording every frame content
handed on to `handleMessage`. -/

structure CodecState where
  buf : List Char
  msgs : List (List Char)
deriving DecidableEq

def codecInit : CodecState := ⟨[], []⟩

def feed (st : CodecState) (chunk : List Char) : CodecState :=
  let r := parseLoop (st.buf ++ chunk)
  ⟨r.1, st.msgs ++ r.2⟩

def feedAll (st : CodecState) (chunks : List (List Char)) : CodecState :=
  chunks.foldl feed st

/-- The messages decoded by the codec, after JSON parsing (a frame whose body
fails to parse is skipped, like the `try/catch` around `JSON.parse`). -/
def decodedMsgs (st : CodecState) : List Json := st.msgs.filterMap jsonTop

/-! ### Frame encoding of messages (C2/C3) -/

/-- Model of `Buffer.byteLength(content)`: the UTF-8 byte count of the
serialized body (the sum of each character's UTF-8 size).  The decoder,
by contrast, counts string positions. -/
def utf8Len (s : List Char) : Nat := (s.map Char.utf8Size).sum

/-- Model of the frame built by `sendRequest`:
`Content-Length: ${Buffer.byteLength(content)}\r\n\r\n` followed by the
serialized message. -/
def encodeMessage (m : Json) : List Char :=
  encodeFrameN (utf8Len (stringify m)) (stringify m)

/-- Decoding one whole byte sequence from a fresh buffer: frame extraction
followed by JSON parsing of each extracted content. -/
def decodeStream (s : List Char) : List Json := (parseLoop s).2.filterMap jsonTop

/-- C2: the decoded-message sequence of the counterexample run differs between
chunked and single-chunk delivery.  The first chunk ends with a header
terminator whose header has no `Content-Length`, so the single-chunk decoder
destructively discards everything after it, while the chunked decoder only
discards the first five characters and then decodes the `77` frame. -/
def malformedChunkA : List Char := ['X', '\r', '\n', '\r', '\n']
def malformedChunkB : List Char := clPrefix ++ ('2' :: (crlfcrlf ++ ['7', '7']))

def frameA : List Char := ['7']
def frameB : List Char := ['4', '2']
def streamAB : List Char := encodeFrame frameA ++ encodeFrame frameB
def chunksAB : List (List Char) := [streamAB.take 5, streamAB.drop 5]

def nonAsciiMsg : Json := Json.str ['é']

/-! ### Request/response correlator

Translation of `sendRequest` (sequence allocation, pending registration, the
30-second timeout) and of the response half of `handleMessage`.  The ghost
fields `sent` and `outcomes` record every assigned sequence number and every
outcome delivered to a pending promise, so that the exactly-one-outcome
property can be stated. -/

def requestFailedMsg : String := "Request failed"

/-- Model of `response.message || 'Request failed'` (JavaScript `||` also
replaces the empty string). -/
def failMsg (m : Option String) : String :=
  match m with
  | some s => if s.isEmpty then requestFailedMsg else s
  | none => requestFailedMsg

/-- Model of `new Error(`Request ${command} timed out`)`. -/
def timeoutMsg (cmd : String) : String := "Request " ++ (cmd ++ " timed out")

/-- A response frame, as far as `handleMessage` inspects it. -/
structure DapResponse where
  request_seq : Nat
  success : Bool
  message : Option String
deriving DecidableEq

/-- The outcome delivered to one Pending Request's promise: `resolve(response)`
or `reject(new Error(...))`. -/
inductive Outcome where
  | resolved (r : DapResponse) : Outcome
  | rejected (msg : String) : Outcome
deriving DecidableEq

/-- Correlator events: one `sendRequest` call, one response frame reaching
`handleMessage`, or the firing of the 30-second timer armed by a send. -/
inductive CorrEvent where
  | send (command : String) : CorrEvent
  | response (r : DapResponse) : CorrEvent
  | timeout (seq : Nat) : CorrEvent
deriving DecidableEq

/-- An event paired with the instant (in milliseconds) at which it occurs. -/
abbrev TimedEvent := Nat × CorrEvent

structure CorrState where
  pending : List (Nat × String)
  requestSeq : Nat
  sent : List (Nat × String)
  outcomes : List (Nat × Outcome)
deriving DecidableEq

/-- Initial correlator state of a session (`requestSeq = 1`). -/
def corrInit : CorrState := ⟨[], 1, [], []⟩

/-- One correlator step.  `send` performs `const seq = this.requestSeq++` and
registers the pending entry; `response` is `handleMessage` on a response
frame: an unknown `request_seq` is dropped silently, otherwise the entry is
deleted and resolved (`success`) or rejected with the adapter's message
defaulted; `timeout` is the timer callback: if the entry is still pending it
is deleted and rejected with the timeout error naming the command. -/
def corrStep (st : CorrState) (e : TimedEvent) : CorrState :=
  match e.2 with
  | .send cmd =>
    { pending := st.pending ++ [(st.requestSeq, cmd)]
      requestSeq := st.requestSeq + 1
      sent := st.sent ++ [(st.requestSeq, cmd)]
      outcomes := st.outcomes }
  | .response r =>
    match st.pending.lookup r.request_seq with
    | none => st
    | some _ =>
      { st with
        pending := st.pending.filter (fun p => p.1 != r.request_seq)
        outcomes := st.outcomes
          ++ [(r.request_seq,
                if r.success then Outcome.resolved r
                else Outcome.rejected (failMsg r.message))] }
  | .timeout s =>
    match st.pending.lookup s with
    | none => st
    | some cmd =>
      { st with
        pending := st.pending.filter (fun p => p.1 != s)
        outcomes := st.outcomes ++ [(s, Outcome.rejected (timeoutMsg cmd))] }

def runCorr (evts : List TimedEvent) : CorrState := evts.foldl corrStep corrInit

/-- Trace validity at position `i`: if the event is a send at time `t`, the
timer for the sequence number it assigns fires at `t + 30000` later in the
trace (the behaviour `setTimeout(..., 30000)` guarantees). -/
def timeoutArmedB (evts : List TimedEvent) (i : Nat) : Bool :=
  match evts.get? i with
  | some (t, CorrEvent.send _) =>
    (List.range evts.length).any fun j =>
      decide (i < j) && decide (evts.get? j
        = some (t + 30000, CorrEvent.timeout (runCorr (evts.take i)).requestSeq))
  | _ => true

def ValidTrace (evts : List TimedEvent) : Prop := ∀ i < evts.length, timeoutArmedB evts i = true

instance (evts : List TimedEvent) : Decidable (ValidTrace evts) := by
  unfold ValidTrace
  infer_instance

/-- Inductive invariant of the correlator state. -/
structure CorrInv (st : CorrState) : Prop where
  sent_lt : ∀ p ∈ st.sent, p.1 < st.requestSeq
  sent_sorted : (st.sent.map Prod.fst).Pairwise (· < ·)
  pending_sub : ∀ p ∈ st.pending, p ∈ st.sent
  pending_nodup : (st.pending.map Prod.fst).Nodup
  outcomes_nodup : (st.outcomes.map Prod.fst).Nodup
  outcomes_sub : ∀ q ∈ st.outcomes, q.1 ∈ st.sent.map Prod.fst
  disj : ∀ s, s ∈ st.pending.map Prod.fst → s ∈ st.outcomes.map Prod.fst → False
  cover : ∀ p ∈ st.sent, p.1 ∈ st.pending.map Prod.fst ∨ p.1 ∈ st.outcomes.map Prod.fst
  forms : ∀ q ∈ st.outcomes,
    (∃ r : DapResponse, r.request_seq = q.1 ∧ r.success = true ∧ q.2 = Outcome.resolved r)
    ∨ (∃ r : DapResponse, r.request_seq = q.1 ∧ r.success = false
        ∧ q.2 = Outcome.rejected (failMsg r.message))
    ∨ (∃ cmd, (q.1, cmd) ∈ st.sent ∧ q.2 = Outcome.rejected (timeoutMsg cmd))

def launchCmd : String := "launch"

def corrTrace0 : List TimedEvent :=
  [(0, CorrEvent.send launchCmd),
   (50, CorrEvent.response ⟨1, true, none⟩),
   (30000, CorrEvent.timeout 1)]

/-! ### Session operations

Translation of the steady-state operations of `RustDebugger`.  Each operation
is a function of the session state and an adapter oracle giving the outcome
each awaited `sendRequest` exchange would have (resolution body, or the
message of the rejection — adapter failure or timeout).  Operations return
the tool response, the next session state, and the transport I/O performed:
a frame is written only when a subprocess exists (`codelldbProcess?.stdin?`).
The waits for `stopped` events in `continue`/`stepOver` are modelled as
completing; no claim depends on them. -/

structure DbgState where
  process : Bool
  threadId : Option Nat
  frameId : Option Nat
deriving DecidableEq

inductive ExchangeResult (α : Type) where
  | ok (body : α) : ExchangeResult α
  | err (msg : String) : ExchangeResult α
deriving DecidableEq

/-- A stack frame, as far as `getVariables` inspects it (`frames[0].id`). -/
structure StackFrame where
  id : Nat
deriving DecidableEq

/-- A scope, as far as `getVariables` inspects it (`scope.variablesReference`,
a required DAP field; `0` means no children and is falsy in the source's
truthiness test). -/
structure DapScope where
  variablesReference : Nat
deriving DecidableEq

/-- A DAP variable as returned by the adapter. -/
structure DapVariable where
  name : String
  value : String
  type : Option String
  variablesReference : Option Nat
deriving DecidableEq

/-- The `Variable` interface of `types.ts`. -/
structure Variable where
  name : String
  value : String
  type : Option String
  variablesReference : Option Nat
deriving DecidableEq

/-- An adapter breakpoint entry of a `setBreakpoints` response body; `id`,
`line` and `verified` may be absent (the source defaults each). -/
structure BpEntry where
  id : Option Nat
  line : Option Nat
  verified : Option Bool
deriving DecidableEq

/-- The `BreakpointInfo` interface of `types.ts`. -/
structure BreakpointInfo where
  id : Nat
  file : String
  line : Nat
  verified : Bool
deriving DecidableEq

/-- The `ToolResponse` interface of `types.ts`. -/
structure ToolResponse (α : Type) where
  success : Bool
  data : Option α := none
  error : Option String := none
deriving DecidableEq

/-- The `SetBreakpointConfig` interface of `types.ts`. -/
structure SetBreakpointConfig where
  file : String
  line : Nat
deriving DecidableEq

/-- Adapter oracle: the outcome of each request exchange, by command and
arguments.  Response bodies are optional lists, mirroring the `?? []`
defaulting in the source.  The `disconnect` outcome is absorbed by
`terminate` (`.catch(() => {})`), so no operation consults it. -/
structure Adapter where
  stackTraceR : Nat → ExchangeResult (Option (List StackFrame))
  scopesR : Nat → ExchangeResult (Option (List DapScope))
  variablesR : Nat → ExchangeResult (Option (List DapVariable))
  setBreakpointsR : String → Nat → ExchangeResult (Option (List BpEntry))
  continueR : Nat → ExchangeResult Unit
  nextR : Nat → ExchangeResult Unit
  disconnectR : ExchangeResult Unit

/-- A request frame written to the adapter, with the arguments the source
passes. -/
inductive SentRequest where
  | stackTrace (threadId startFrame levels : Nat) : SentRequest
  | scopes (frameId : Nat) : SentRequest
  | variables (variablesReference : Nat) : SentRequest
  | setBreakpoints (file : String) (line : Nat) : SentRequest
  | continueReq (threadId : Nat) : SentRequest
  | next (threadId : Nat) : SentRequest
  | disconnect (terminateDebuggee : Bool) : SentRequest
deriving DecidableEq

inductive IOAction where
  | send (r : SentRequest) : IOAction
  | kill : IOAction
deriving DecidableEq

/-- Transport I/O of one `sendRequest`: the frame is written only when the
subprocess handle is non-null (`this.codelldbProcess?.stdin?.write`). -/
def issue (st : DbgState) (r : SentRequest) : List IOAction :=
  if st.process then [IOAction.send r] else []

structure OpResult (α : Type) where
  resp : ToolResponse α
  state : DbgState
  io : List IOAction
deriving DecidableEq

def noThreadMsg : String := "No thread ID"

/-- Translation of `continue()`. -/
def continueOp (st : DbgState) (a : Adapter) : OpResult Unit :=
  match st.threadId with
  | none => ⟨{ success := false, error := some noThreadMsg }, st, []⟩
  | some tid =>
    match a.continueR tid with
    | .ok _ => ⟨{ success := true }, st, issue st (.continueReq tid)⟩
    | .err m => ⟨{ success := false, error := some m }, st, issue st (.continueReq tid)⟩

/-- Translation of `stepOver()` (the `next` request). -/
def stepOverOp (st : DbgState) (a : Adapter) : OpResult Unit :=
  match st.threadId with
  | none => ⟨{ success := false, error := some noThreadMsg }, st, []⟩
  | some tid =>
    match a.nextR tid with
    | .ok _ => ⟨{ success := true }, st, issue st (.next tid)⟩
    | .err m => ⟨{ success := false, error := some m }, st, issue st (.next tid)⟩

/-- The projection performed by `getVariablesFromReference` on each returned
variable. -/
def toVariable (v : DapVariable) : Variable :=
  { name := v.name, value := v.value, type := v.type,
    variablesReference := v.variablesReference }

/-- Translation of the scope loop of `getVariables`: each scope with a truthy
(non-zero) `variablesReference` triggers one `variables` request whose results
are appended; a rejection aborts the loop and propagates. -/
def varsLoop (a : Adapter) (st : DbgState) :
    List DapScope → ExchangeResult (List Variable) × List IOAction
  | [] => (.ok [], [])
  | sc :: rest =>
    if sc.variablesReference ≠ 0 then
      match a.variablesR sc.variablesReference with
      | .err m => (.err m, issue st (.variables sc.variablesReference))
      | .ok body =>
        match varsLoop a st rest with
        | (.err m, tr) => (.err m, issue st (.variables sc.variablesReference) ++ tr)
        | (.ok acc, tr) =>
          (.ok ((body.getD []).map toVariable ++ acc),
           issue st (.variables sc.variablesReference) ++ tr)
    else varsLoop a st rest

/-- Translation of `getVariables()`. -/
def getVariablesOp (st : DbgState) (a : Adapter) : OpResult (List Variable) :=
  match st.threadId with
  | none => ⟨{ success := false, error := some noThreadMsg }, st, []⟩
  | some tid =>
    let t1 := issue st (.stackTrace tid 0 1)
    match a.stackTraceR tid with
    | .err m => ⟨{ success := false, error := some m }, st, t1⟩
    | .ok body =>
      match body.getD [] with
      | [] => ⟨{ success := true, data := some [] }, st, t1⟩
      | fr :: _ =>
        let st1 : DbgState := { st with frameId := some fr.id }
        let t2 := issue st1 (.scopes fr.id)
        match a.scopesR fr.id with
        | .err m => ⟨{ success := false, error := some m }, st1, t1 ++ t2⟩
        | .ok sbody =>
          match varsLoop a st1 (sbody.getD []) with
          | (.err m, tr) => ⟨{ success := false, error := some m }, st1, t1 ++ t2 ++ tr⟩
          | (.ok vars, tr) => ⟨{ success := true, data := some vars }, st1, t1 ++ t2 ++ tr⟩

/-- Index-aware map, as `(bp, index) => ...` of `Array.prototype.map`. -/
def mapIdxFrom {α β : Type} (i : Nat) (f : Nat → α → β) : List α → List β
  | [] => []
  | x :: t => f i x :: mapIdxFrom (i + 1) f t

/-- The per-entry mapping of `setBreakpoint`. -/
def toBreakpointInfo (cfg : SetBreakpointConfig) (i : Nat) (bp : BpEntry) : BreakpointInfo :=
  { id := bp.id.getD i, file := cfg.file, line := bp.line.getD cfg.line,
    verified := bp.verified.getD false }

/-- Translation of `setBreakpoint()`: note it performs the exchange without
any thread-identifier precondition check. -/
def setBreakpointOp (st : DbgState) (a : Adapter) (cfg : SetBreakpointConfig) :
    OpResult (List BreakpointInfo) :=
  match a.setBreakpointsR cfg.file cfg.line with
  | .err m =>
    ⟨{ success := false, error := some m }, st, issue st (.setBreakpoints cfg.file cfg.line)⟩
  | .ok body =>
    ⟨{ success := true, data := some (mapIdxFrom 0 (toBreakpointInfo cfg) (body.getD [])) },
      st, issue st (.setBreakpoints cfg.file cfg.line)⟩

/-- Translation of `terminate()`: with a live process, the disconnect exchange
is performed with its outcome absorbed (`.catch(() => {})`), the process is
killed and the handle cleared; with no process, immediate success with no
exchange. -/
def terminateOp (st : DbgState) (a : Adapter) : OpResult Unit :=
  if st.process then
    ⟨{ success := true }, { st with process := false },
      issue st (.disconnect true) ++ [IOAction.kill]⟩
  else
    ⟨{ success := true }, st, []⟩

def adapterNone : Adapter :=
  { stackTraceR := fun _ => .ok none
    scopesR := fun _ => .ok none
    variablesR := fun _ => .ok none
    setBreakpointsR := fun _ _ => .ok none
    continueR := fun _ => .ok ()
    nextR := fun _ => .ok ()
    disconnectR := .ok () }

def mainRs : String := "src/main.rs"

/-- Adapter of the spec's breakpoint scenario: `setBreakpoints` answers
`{breakpoints: [{verified: true, line: 10}]}`. -/
def adapterBp : Adapter :=
  { adapterNone with setBreakpointsR := fun _ _ => .ok (some [⟨none, some 10, some true⟩]) }

def xName : String := "x"
def xValue : String := "42"
def xType : String := "i32"

/-- Adapter of the spec's inspect-variables scenario: one frame with id 1,
one scope with `variablesReference` 100, and `variables` for 100 answering
`[{name: x, value: 42, type: i32}]`. -/
def adapterVars : Adapter :=
  { adapterNone with
    stackTraceR := fun _ => .ok (some [⟨1⟩])
    scopesR := fun _ => .ok (some [⟨100⟩])
    variablesR := fun _ => .ok (some [⟨xName, xValue, some xType, none⟩]) }

def adapterEmptyStack : Adapter :=
  { adapterNone with stackTraceR := fun _ => .ok (some []) }

theorem natCharsAux_congr : ∀ f f' n, n ≤ f → n ≤ f' →
    natCharsAux f n = natCharsAux f' n := by
  intro f
  induction f with
  | zero =>
    intro f' n hf hf'
    interval_cases n
    cases f' <;> simp [natCharsAux]
  | succ f ih =>
    intro f' n hf hf'
    match f', n with
    | 0, n =>
      interval_cases n <;> simp [natCharsAux]
    | f' + 1, n =>
      simp only [natCharsAux]
      by_cases h : n < 10
      · simp [h]
      · have hd : n / 10 ≤ f := by omega
        have hd' : n / 10 ≤ f' := by omega
        simp [h, ih f' (n / 10) hd hd']

theorem natChars_eq (n : Nat) :
    natChars n = if n < 10 then [digitChar n]
      else natChars (n / 10) ++ [digitChar (n % 10)] := by
  unfold natChars
  by_cases h : n < 10
  · cases n <;> simp_all [natCharsAux]
  · have h0 : 0 < n := by omega
    obtain ⟨m, rfl⟩ : ∃ m, n = m + 1 := ⟨n - 1, by omega⟩
    simp only [natCharsAux, h, if_false]
    rw [natCharsAux_congr m ((m + 1) / 10) ((m + 1) / 10) (by omega) (by omega)]

theorem digitVal_digitChar {k : Nat} (h : k < 10) : digitVal (digitChar k) = k := by
  interval_cases k <;> decide

theorem digitChar_isDigit {k : Nat} (h : k < 10) : (digitChar k).isDigit = true := by
  interval_cases k <;> decide

theorem digitsVal_append (a b : List Char) :
    digitsVal (a ++ b) = b.foldl (fun a c => a * 10 + digitVal c) (digitsVal a) := by
  simp [digitsVal, List.foldl_append]

theorem natChars_ne_nil (n : Nat) : natChars n ≠ [] := by
  rw [natChars_eq]
  by_cases h : n < 10 <;> simp [h]

theorem natChars_all_digit (n : Nat) : ∀ c ∈ natChars n, c.isDigit = true := by
  induction n using Nat.strong_induction_on with
  | _ n ih =>
    rw [natChars_eq]
    by_cases h : n < 10
    · simp [h, digitChar_isDigit]
    · simp only [h, if_false]
      intro c hc
      rcases List.mem_append.1 hc with h1 | h1
      · exact ih (n / 10) (by omega) c h1
      · simp only [List.mem_singleton] at h1
        subst h1
        exact digitChar_isDigit (by omega)

theorem digitsVal_natChars (n : Nat) : digitsVal (natChars n) = n := by
  induction n using Nat.strong_induction_on with
  | _ n ih =>
    rw [natChars_eq]
    by_cases h : n < 10
    · simp [h, digitsVal, digitVal_digitChar h]
    · simp only [h, if_false]
      rw [digitsVal_append]
      simp only [List.foldl_cons, List.foldl_nil]
      rw [ih (n / 10) (by omega), digitVal_digitChar (by omega)]
      omega

theorem natChars_no_cr (n : Nat) : ∀ c ∈ natChars n, c ≠ '\r' := by
  intro c hc
  have := natChars_all_digit n c hc
  intro h
  subst h
  simp at this

theorem stringify_null : stringify .null = litNull := by rw [stringify]

theorem stringify_boolT : stringify (.bool true) = litTrue := by rw [stringify]

theorem stringify_boolF : stringify (.bool false) = litFalse := by rw [stringify]

theorem stringify_num (n : Int) : stringify (.num n) = intChars n := by rw [stringify]

theorem stringify_str (s : List Char) : stringify (.str s) = strLit s := by rw [stringify]

theorem stringify_arr (xs : List Json) :
    stringify (.arr xs) = '[' :: (joinComma (xs.map stringify) ++ [']']) := by
  rw [stringify, List.attach_map_coe]

theorem stringify_obj (ms : List (List Char × Json)) :
    stringify (.obj ms) =
      '{' :: (joinComma (ms.map fun kv => strLit kv.1 ++ ':' :: stringify kv.2) ++ ['}']) := by
  rw [stringify, List.attach_map_coe ms (fun kv => strLit kv.1 ++ ':' :: stringify kv.2)]

theorem noDigitStart_nil : NoDigitStart [] := by
  intro c hc
  simp at hc

theorem noDigitStart_cons {c : Char} (l : List Char) (h : c.isDigit = false) :
    NoDigitStart (c :: l) := by
  intro c' hc'
  simp only [List.head?_cons, Option.some.injEq] at hc'
  subst hc'
  exact h

theorem takeWhile_append_split {p : Char → Bool} :
    ∀ a b : List Char, (∀ c ∈ a, p c = true) → (∀ c, b.head? = some c → p c = false) →
      (a ++ b).takeWhile p = a ∧ (a ++ b).dropWhile p = b := by
  intro a
  induction a with
  | nil =>
    intro b _ hb
    match b with
    | [] => simp
    | c :: t =>
      have := hb c (by simp)
      simp [List.takeWhile, List.dropWhile, this]
  | cons c a ih =>
    intro b ha hb
    have hc := ha c (by simp)
    have := ih b (fun x hx => ha x (by simp [hx])) hb
    simp [List.takeWhile, List.dropWhile, hc, this.1, this.2]

theorem hexDigitChar_isHex {k : Nat} (h : k < 16) : isHexDigit (hexDigitChar k) = true := by
  interval_cases k <;> decide

theorem hexVal_hexDigitChar {k : Nat} (h : k < 16) : hexVal (hexDigitChar k) = k := by
  interval_cases k <;> decide

theorem parseStringBody_cons (c : Char) (rest : List Char) (h1 : c ≠ '"') (h2 : c ≠ '\\') :
    parseStringBody (c :: rest) = (parseStringBody rest).map fun p => (c :: p.1, p.2) := by
  rw [parseStringBody.eq_def]
  split
  · simp_all
  · simp_all
  · exfalso; simp_all
  · exfalso; simp_all
  · simp_all

theorem parseStringBody_rt : ∀ s r, parseStringBody (escStr s ++ ('"' :: r)) = some (s, r) := by
  intro s
  induction s with
  | nil =>
    intro r
    simp [escStr, parseStringBody]
  | cons c t ih =>
    intro r
    show parseStringBody ((escChar c ++ escStr t) ++ ('"' :: r)) = _
    rw [List.append_assoc]
    by_cases e1 : c = '"'
    · subst e1; simp [escChar, parseStringBody, unescChar, ih r]
    · by_cases e2 : c = '\\'
      · subst e2; simp [escChar, parseStringBody, unescChar, ih r]
      · by_cases e3 : c = '\n'
        · subst e3; simp [escChar, parseStringBody, unescChar, ih r]
        · by_cases e4 : c = '\r'
          · subst e4; simp [escChar, parseStringBody, unescChar, ih r]
          · by_cases e5 : c = '\t'
            · subst e5; simp [escChar, parseStringBody, unescChar, ih r]
            · by_cases e6 : c = '\x08'
              · subst e6; simp [escChar, parseStringBody, unescChar, ih r]
              · by_cases e7 : c = '\x0c'
                · subst e7; simp [escChar, parseStringBody, unescChar, ih r]
                · by_cases e8 : c.toNat < 32
                  · have hd : c.toNat / 16 < 16 := by omega
                    have hm : c.toNat % 16 < 16 := by omega
                    have h0 : isHexDigit '0' = true := by decide
                    have hv0 : hexVal '0' = 0 := by decide
                    simp only [escChar, e1, e2, e3, e4, e5, e6, e7, e8, if_true, if_false,
                      List.cons_append, List.nil_append]
                    rw [parseStringBody]
                    simp only [h0, hexDigitChar_isHex hd, hexDigitChar_isHex hm,
                      Bool.and_self, Bool.and_true, if_true]
                    rw [ih r]
                    simp only [Option.map_some', Option.some.injEq, Prod.mk.injEq]
                    refine ⟨?_, trivial⟩
                    rw [hv0, hexVal_hexDigitChar hd, hexVal_hexDigitChar hm]
                    have hval : ((0 * 16 + 0) * 16 + c.toNat / 16) * 16 + c.toNat % 16
                        = c.toNat := by omega
                    rw [hval, Char.ofNat_toNat]
                  · simp only [escChar, e1, e2, e3, e4, e5, e6, e7, e8, if_false,
                      List.cons_append, List.nil_append]
                    rw [parseStringBody_cons c _ e1 e2, ih r]
                    rfl

theorem natChars_head_digit (m : Nat) :
    ∃ d ds, natChars m = d :: ds ∧ d.isDigit = true := by
  rcases hn : natChars m with _ | ⟨d, ds⟩
  · exact absurd hn (natChars_ne_nil m)
  · exact ⟨d, ds, rfl, natChars_all_digit m d (by rw [hn]; simp)⟩

theorem parseNumber_rt (n : Int) (r : List Char) (hr : NoDigitStart r) :
    parseNumber (intChars n ++ r) = some (.num n, r) := by
  by_cases hn : n < 0
  · have hsplit := takeWhile_append_split (p := Char.isDigit) (natChars n.natAbs) r
      (natChars_all_digit n.natAbs) hr
    simp only [intChars, hn, if_true, List.cons_append]
    rw [parseNumber]
    simp only [List.head?_cons, List.tail_cons, if_pos rfl, hsplit.1, hsplit.2]
    have hne : (natChars n.natAbs).isEmpty = false := by
      rcases natChars_head_digit n.natAbs with ⟨d, ds, hd, _⟩
      simp [hd]
    simp only [hne, Bool.false_eq_true, if_false, if_true, digitsVal_natChars,
      Option.some.injEq, Prod.mk.injEq, Json.num.injEq]
    constructor
    · omega
    · trivial
  · have hsplit := takeWhile_append_split (p := Char.isDigit) (natChars n.toNat) r
      (natChars_all_digit n.toNat) hr
    simp only [intChars, hn, if_false]
    rcases natChars_head_digit n.toNat with ⟨d, ds, hd, hdig⟩
    have hdm : d ≠ '-' := by
      intro h
      subst h
      simp at hdig
    rw [parseNumber]
    have hhead : ¬ ((natChars n.toNat ++ r).head? = some '-') := by
      rw [hd]
      simp only [List.cons_append, List.head?_cons, Option.some.injEq]
      exact hdm
    simp only [if_neg hhead, hsplit.1, hsplit.2]
    have hne : (natChars n.toNat).isEmpty = false := by simp [hd]
    simp only [hne, Bool.false_eq_true, if_false, digitsVal_natChars,
      Option.some.injEq, Prod.mk.injEq, Json.num.injEq]
    constructor
    · omega
    · trivial

theorem stringify_head (j : Json) :
    ∃ c t, stringify j = c :: t ∧ isOpenChar c = true := by
  cases j with
  | null => exact ⟨'n', _, by rw [stringify_null]; rfl, by decide⟩
  | bool b =>
    cases b with
    | true => exact ⟨'t', _, by rw [stringify_boolT]; rfl, by decide⟩
    | false => exact ⟨'f', _, by rw [stringify_boolF]; rfl, by decide⟩
  | num n =>
    rw [stringify_num]
    by_cases hn : n < 0
    · exact ⟨'-', _, by rw [intChars, if_pos hn], by decide⟩
    · rcases natChars_head_digit n.toNat with ⟨d, ds, hd, hdig⟩
      exact ⟨d, ds, by rw [intChars, if_neg hn, hd], by simp [isOpenChar, hdig]⟩
  | str s => exact ⟨'"', _, by rw [stringify_str]; rfl, by decide⟩
  | arr xs => exact ⟨'[', _, by rw [stringify_arr], by decide⟩
  | obj ms => exact ⟨'{', _, by rw [stringify_obj], by decide⟩

theorem stringify_ne_nil (j : Json) : stringify j ≠ [] := by
  rcases stringify_head j with ⟨c, t, h, _⟩
  simp [h]

theorem isOpenChar_ne_delim {c : Char} (h : isOpenChar c = true) :
    c ≠ ']' ∧ c ≠ ',' ∧ c ≠ '}' ∧ c ≠ ':' := by
  simp only [isOpenChar, Bool.or_eq_true, decide_eq_true_eq] at h
  refine ⟨?_, ?_, ?_, ?_⟩ <;>
    · intro he
      subst he
      rcases h with ((((((h | h) | h) | h) | h) | h) | h) | h <;> simp_all

theorem joinComma_cons_cons (x y : List Char) (t : List (List Char)) :
    joinComma (x :: y :: t) = x ++ ',' :: joinComma (y :: t) := rfl

theorem joinComma_le_length : ∀ l : List (List Char), (∀ x ∈ l, x ≠ []) →
    l.length ≤ (joinComma l).length := by
  intro l
  induction l with
  | nil => simp
  | cons x t ih =>
    intro hne
    match t with
    | [] =>
      have := hne x (by simp)
      have : 0 < x.length := List.length_pos.2 this
      simpa [joinComma] using this
    | y :: t' =>
      have ht := ih (fun a ha => hne a (by simp [ha]))
      rw [joinComma_cons_cons]
      simp only [List.length_cons, List.length_append] at *
      omega

theorem mem_joinComma_le : ∀ (l : List (List Char)) (a : List Char), a ∈ l →
    a.length ≤ (joinComma l).length := by
  intro l
  induction l with
  | nil => simp
  | cons x t ih =>
    intro a ha
    match t with
    | [] =>
      simp only [List.mem_singleton] at ha
      subst ha
      simp [joinComma]
    | y :: t' =>
      rw [joinComma_cons_cons]
      rcases List.mem_cons.1 ha with h | h
      · subst h
        simp
      · have := ih a h
        simp only [List.length_append, List.length_cons]
        omega

theorem isPrefixOf_cons_ne {c d : Char} (p l : List Char) (h : d ≠ c) :
    (c :: p).isPrefixOf (d :: l) = false := by
  simp only [List.isPrefixOf, Bool.and_eq_false_iff]
  left
  simp only [beq_eq_false_iff_ne, ne_eq]
  exact fun hh => h hh.symm

theorem parseJson_nullE (f : Nat) (r : List Char) :
    parseJson (f + 1) (litNull ++ r) = some (.null, r) := by
  have h : litNull.isPrefixOf (litNull ++ r) = true :=
    List.isPrefixOf_iff_prefix.2 (List.prefix_append _ _)
  rw [parseJson.eq_def]
  simp only [h, if_true]
  simp [litNull]

theorem parseJson_trueE (f : Nat) (r : List Char) :
    parseJson (f + 1) (litTrue ++ r) = some (.bool true, r) := by
  have hn : litNull.isPrefixOf (litTrue ++ r) = false := by
    rw [show litTrue ++ r = 't' :: (['r', 'u', 'e'] ++ r) from rfl,
        show litNull = 'n' :: ['u', 'l', 'l'] from rfl]
    exact isPrefixOf_cons_ne _ _ (by decide)
  have ht : litTrue.isPrefixOf (litTrue ++ r) = true :=
    List.isPrefixOf_iff_prefix.2 (List.prefix_append _ _)
  rw [parseJson.eq_def]
  simp only [hn, ht, Bool.false_eq_true, if_false, if_true]
  simp [litTrue]

theorem parseJson_falseE (f : Nat) (r : List Char) :
    parseJson (f + 1) (litFalse ++ r) = some (.bool false, r) := by
  have e : litFalse ++ r = 'f' :: (['a', 'l', 's', 'e'] ++ r) := rfl
  have hn : litNull.isPrefixOf (litFalse ++ r) = false := by
    rw [e, show litNull = 'n' :: ['u', 'l', 'l'] from rfl]
    exact isPrefixOf_cons_ne _ _ (by decide)
  have ht : litTrue.isPrefixOf (litFalse ++ r) = false := by
    rw [e, show litTrue = 't' :: ['r', 'u', 'e'] from rfl]
    exact isPrefixOf_cons_ne _ _ (by decide)
  have hf : litFalse.isPrefixOf (litFalse ++ r) = true :=
    List.isPrefixOf_iff_prefix.2 (List.prefix_append _ _)
  rw [parseJson.eq_def]
  simp only [hn, ht, hf, Bool.false_eq_true, if_false, if_true]
  simp [litFalse]

theorem parseJson_headE (f : Nat) (c : Char) (r : List Char)
    (h1 : c ≠ 'n') (h2 : c ≠ 't') (h3 : c ≠ 'f') :
    parseJson (f + 1) (c :: r) =
      match c :: r with
      | '"' :: r => (parseStringBody r).map fun p => (Json.str p.1, p.2)
      | '[' :: r => (parseElemsW (parseJson f) (r.length + 1) r).map fun p => (Json.arr p.1, p.2)
      | '{' :: r => (parseMembersW (parseJson f) (r.length + 1) r).map fun p => (Json.obj p.1, p.2)
      | _ =>
        if (c :: r).head? = some '-' || (((c :: r).head?).map Char.isDigit).getD false then
          parseNumber (c :: r)
        else none := by
  have hn : litNull.isPrefixOf (c :: r) = false := by
    rw [show litNull = 'n' :: ['u', 'l', 'l'] from rfl]
    exact isPrefixOf_cons_ne _ _ h1
  have ht : litTrue.isPrefixOf (c :: r) = false := by
    rw [show litTrue = 't' :: ['r', 'u', 'e'] from rfl]
    exact isPrefixOf_cons_ne _ _ h2
  have hf : litFalse.isPrefixOf (c :: r) = false := by
    rw [show litFalse = 'f' :: ['a', 'l', 's', 'e'] from rfl]
    exact isPrefixOf_cons_ne _ _ h3
  rw [parseJson.eq_def]
  simp only [hn, ht, hf, Bool.false_eq_true, if_false]

theorem parseJson_strE (f : Nat) (r : List Char) :
    parseJson (f + 1) ('"' :: r) = (parseStringBody r).map fun p => (.str p.1, p.2) := by
  rw [parseJson_headE f _ r (by decide) (by decide) (by decide)]
  rfl

theorem parseJson_arrE (f : Nat) (r : List Char) :
    parseJson (f + 1) ('[' :: r)
      = (parseElemsW (parseJson f) (r.length + 1) r).map fun p => (.arr p.1, p.2) := by
  rw [parseJson_headE f _ r (by decide) (by decide) (by decide)]
  rfl

theorem parseJson_objE (f : Nat) (r : List Char) :
    parseJson (f + 1) ('{' :: r)
      = (parseMembersW (parseJson f) (r.length + 1) r).map fun p => (.obj p.1, p.2) := by
  rw [parseJson_headE f _ r (by decide) (by decide) (by decide)]
  rfl

theorem parseJson_negE (f : Nat) (r : List Char) :
    parseJson (f + 1) ('-' :: r) = parseNumber ('-' :: r) := by
  rw [parseJson_headE f _ r (by decide) (by decide) (by decide)]
  simp

theorem parseJson_digitE (f : Nat) (d : Char) (r : List Char) (hd : d.isDigit = true) :
    parseJson (f + 1) (d :: r) = parseNumber (d :: r) := by
  have h1 : d ≠ 'n' := by intro h; subst h; exact absurd hd (by decide)
  have h2 : d ≠ 't' := by intro h; subst h; exact absurd hd (by decide)
  have h3 : d ≠ 'f' := by intro h; subst h; exact absurd hd (by decide)
  have h4 : d ≠ '"' := by intro h; subst h; exact absurd hd (by decide)
  have h5 : d ≠ '[' := by intro h; subst h; exact absurd hd (by decide)
  have h6 : d ≠ '{' := by intro h; subst h; exact absurd hd (by decide)
  rw [parseJson_headE f d r h1 h2 h3]
  split <;> simp_all

theorem parseElemsW_rt (pj : List Char → Option (Json × List Char)) :
    ∀ (xs : List Json) (ef : Nat) (r : List Char), xs ≠ [] →
      (∀ x ∈ xs, ∀ rest, NoDigitStart rest → pj (stringify x ++ rest) = some (x, rest)) →
      xs.length ≤ ef →
      parseElemsW pj ef (joinComma (xs.map stringify) ++ (']' :: r)) = some (xs, r) := by
  intro xs
  induction xs with
  | nil => intro ef r h; exact absurd rfl h
  | cons x t ih =>
    intro ef r _ hp hl
    obtain ⟨e, rfl⟩ : ∃ e, ef = e + 1 := ⟨ef - 1, by simp at hl; omega⟩
    rcases stringify_head x with ⟨c, cs, hx, hoc⟩
    have hdelim := isOpenChar_ne_delim hoc
    match t with
    | [] =>
      show parseElemsW pj (e + 1) (stringify x ++ (']' :: r)) = _
      rw [parseElemsW]
      have hh : ¬ ((stringify x ++ (']' :: r)).head? = some ']') := by
        rw [hx]
        simp only [List.cons_append, List.head?_cons, Option.some.injEq]
        exact hdelim.1
      rw [if_neg hh, hp x (by simp) (']' :: r) (noDigitStart_cons _ (by decide))]
      simp
    | y :: t' =>
      have he : joinComma ((x :: y :: t').map stringify) ++ (']' :: r)
          = stringify x ++ (',' :: (joinComma ((y :: t').map stringify) ++ (']' :: r))) := by
        rw [List.map_cons, List.map_cons, joinComma_cons_cons]
        simp
      rw [he, parseElemsW]
      have hh : ¬ ((stringify x
          ++ (',' :: (joinComma ((y :: t').map stringify) ++ (']' :: r)))).head? = some ']') := by
        rw [hx]
        simp only [List.cons_append, List.head?_cons, Option.some.injEq]
        exact hdelim.1
      rw [if_neg hh, hp x (by simp) _ (noDigitStart_cons _ (by decide))]
      have hih := ih e r (by simp) (fun z hz => hp z (by simp [hz])) (by simp at hl ⊢; omega)
      simp only [Option.some_bind, List.head?_cons, Option.some.injEq, List.tail_cons,
        if_pos rfl, hih, Option.map_some']
      simp

theorem parseMembersW_quote (pj : List Char → Option (Json × List Char)) (f : Nat)
    (X : List Char) :
    parseMembersW pj (f + 1) ('"' :: X) =
      (parseStringBody X).bind fun kr =>
        if kr.2.head? = some ':' then
          (pj kr.2.tail).bind fun vr =>
            if vr.2.head? = some ',' then
              (parseMembersW pj f vr.2.tail).map fun p => ((kr.1, vr.1) :: p.1, p.2)
            else if vr.2.head? = some '}' then some ([(kr.1, vr.1)], vr.2.tail)
            else none
        else none
      := by
  rw [parseMembersW.eq_def]
  rfl

theorem parseMembersW_rt (pj : List Char → Option (Json × List Char)) :
    ∀ (ms : List (List Char × Json)) (ef : Nat) (r : List Char), ms ≠ [] →
      (∀ kv ∈ ms, ∀ rest, NoDigitStart rest → pj (stringify kv.2 ++ rest) = some (kv.2, rest)) →
      ms.length ≤ ef →
      parseMembersW pj ef
          (joinComma (ms.map fun kv => strLit kv.1 ++ ':' :: stringify kv.2) ++ ('}' :: r))
        = some (ms, r) := by
  intro ms
  induction ms with
  | nil => intro ef r h; exact absurd rfl h
  | cons kv t ih =>
    obtain ⟨k, v⟩ := kv
    intro ef r _ hp hl
    obtain ⟨e, rfl⟩ : ∃ e, ef = e + 1 := ⟨ef - 1, by simp at hl; omega⟩
    match t with
    | [] =>
      have he : joinComma ([((k, v))].map fun kv => strLit kv.1 ++ ':' :: stringify kv.2)
            ++ ('}' :: r)
          = '"' :: (escStr k ++ ('"' :: (':' :: (stringify v ++ ('}' :: r))))) := by
        simp [joinComma, strLit]
      rw [he, parseMembersW_quote, parseStringBody_rt]
      simp only [Option.some_bind, List.head?_cons, Option.some.injEq, List.tail_cons,
        if_pos rfl]
      rw [hp (k, v) (by simp) ('}' :: r) (noDigitStart_cons _ (by decide))]
      simp
    | kv2 :: t' =>
      have he : joinComma (((k, v) :: kv2 :: t').map fun kv => strLit kv.1 ++ ':' :: stringify kv.2)
            ++ ('}' :: r)
          = '"' :: (escStr k ++ ('"' :: (':' :: (stringify v
              ++ (',' :: (joinComma ((kv2 :: t').map fun kv => strLit kv.1 ++ ':' :: stringify kv.2)
                    ++ ('}' :: r))))))) := by
        rw [List.map_cons, List.map_cons, joinComma_cons_cons]
        simp [strLit]
      rw [he, parseMembersW_quote, parseStringBody_rt]
      simp only [Option.some_bind, List.head?_cons, Option.some.injEq, List.tail_cons,
        if_pos rfl]
      rw [hp (k, v) (by simp) _ (noDigitStart_cons _ (by decide))]
      have hih := ih e r (by simp) (fun z hz => hp z (by simp [hz])) (by simp at hl ⊢; omega)
      simp only [Option.some_bind, List.head?_cons, Option.some.injEq, List.tail_cons,
        if_pos rfl, hih, Option.map_some']
      simp

theorem json_sizeOf_pos (j : Json) : 0 < sizeOf j := by
  cases j <;> simp_arith

/-- Round-trip of the JSON model: parsing a serialized value (followed by any
continuation that does not start with a digit) returns the value and the
continuation. -/
theorem parseJson_stringify : ∀ (N : Nat) (m : Json), sizeOf m ≤ N →
    ∀ (fuel : Nat) (r : List Char), (stringify m).length < fuel → NoDigitStart r →
      parseJson fuel (stringify m ++ r) = some (m, r) := by
  intro N
  induction N with
  | zero =>
    intro m hm
    have := json_sizeOf_pos m
    omega
  | succ N ih =>
    intro m hm fuel r hf hr
    obtain ⟨f, rfl⟩ : ∃ f, fuel = f + 1 := ⟨fuel - 1, by omega⟩
    cases m with
    | null =>
      rw [stringify_null, parseJson_nullE]
    | bool b =>
      cases b
      · rw [stringify_boolF, parseJson_falseE]
      · rw [stringify_boolT, parseJson_trueE]
    | num n =>
      rw [stringify_num]
      by_cases hn : n < 0
      · have he : intChars n ++ r = '-' :: (natChars n.natAbs ++ r) := by
          rw [intChars, if_pos hn]
          simp
        rw [he, parseJson_negE, ← he]
        exact parseNumber_rt n r hr
      · rcases natChars_head_digit n.toNat with ⟨d, ds, hd, hdig⟩
        have he : intChars n ++ r = d :: (ds ++ r) := by
          rw [intChars, if_neg hn, hd]
          simp
        rw [he, parseJson_digitE f d _ hdig, ← he]
        exact parseNumber_rt n r hr
    | str s =>
      have he : stringify (.str s) ++ r = '"' :: (escStr s ++ ('"' :: r)) := by
        rw [stringify_str]
        simp [strLit]
      rw [he, parseJson_strE, parseStringBody_rt]
      rfl
    | arr xs =>
      cases xs with
      | nil =>
        have he : stringify (Json.arr []) ++ r = '[' :: (']' :: r) := by
          rw [stringify_arr]
          simp [joinComma]
        rw [he, parseJson_arrE, parseElemsW]
        simp
      | cons x t =>
        have he : stringify (Json.arr (x :: t)) ++ r
            = '[' :: (joinComma ((x :: t).map stringify) ++ (']' :: r)) := by
          rw [stringify_arr]
          simp
        rw [he, parseJson_arrE]
        rw [parseElemsW_rt (parseJson f) (x :: t) _ r (by simp) ?hp ?hl]
        · rfl
        case hp =>
          intro z hz rest hrest
          refine ih z ?_ f rest ?_ hrest
          · have h1 := List.sizeOf_lt_of_mem hz
            have h2 : sizeOf (Json.arr (x :: t)) = 1 + sizeOf (x :: t) := by simp
            omega
          · have h3 : (stringify z).length ≤ (joinComma ((x :: t).map stringify)).length :=
              mem_joinComma_le _ _ (List.mem_map_of_mem _ hz)
            have h4 : (stringify (Json.arr (x :: t))).length
                = (joinComma ((x :: t).map stringify)).length + 2 := by
              rw [stringify_arr]
              simp
            omega
        case hl =>
          have h5 := joinComma_le_length ((x :: t).map stringify) ?_
          · simp only [List.length_map, List.length_cons] at h5
            simp only [List.length_append, List.length_cons]
            omega
          · intro a ha
            rcases List.mem_map.1 ha with ⟨z, _, rfl⟩
            exact stringify_ne_nil z
    | obj ms =>
      cases ms with
      | nil =>
        have he : stringify (Json.obj []) ++ r = '{' :: ('}' :: r) := by
          rw [stringify_obj]
          simp [joinComma]
        rw [he, parseJson_objE, parseMembersW.eq_def]
        rfl
      | cons kv t =>
        have he : stringify (Json.obj (kv :: t)) ++ r
            = '{' :: (joinComma ((kv :: t).map fun p => strLit p.1 ++ ':' :: stringify p.2)
                ++ ('}' :: r)) := by
          rw [stringify_obj]
          simp
        rw [he, parseJson_objE]
        rw [parseMembersW_rt (parseJson f) (kv :: t) _ r (by simp) ?hp ?hl]
        · rfl
        case hp =>
          intro z hz rest hrest
          refine ih z.2 ?_ f rest ?_ hrest
          · have h1 := List.sizeOf_lt_of_mem hz
            have h2 : sizeOf (Json.obj (kv :: t)) = 1 + sizeOf (kv :: t) := by simp
            have h3 : sizeOf z.2 < sizeOf z := by
              obtain ⟨a, b⟩ := z
              simp only [Prod.mk.sizeOf_spec]
              omega
            omega
          · have h3 : (strLit z.1 ++ ':' :: stringify z.2).length
                ≤ (joinComma ((kv :: t).map fun p => strLit p.1 ++ ':' :: stringify p.2)).length :=
              mem_joinComma_le _ _ (List.mem_map_of_mem _ hz)
            have h4 : (stringify (Json.obj (kv :: t))).length
                = (joinComma ((kv :: t).map fun p => strLit p.1 ++ ':' :: stringify p.2)).length
                  + 2 := by
              rw [stringify_obj]
              simp
            have h5 : (stringify z.2).length < (strLit z.1 ++ ':' :: stringify z.2).length := by
              simp [strLit]
              omega
            omega
        case hl =>
          have h5 := joinComma_le_length ((kv :: t).map fun p => strLit p.1 ++ ':' :: stringify p.2)
            ?_
          · simp only [List.length_map, List.length_cons] at h5
            simp only [List.length_append, List.length_cons]
            omega
          · intro a ha
            rcases List.mem_map.1 ha with ⟨z, _, rfl⟩
            simp [strLit]

/-- The JSON model round-trips on complete documents. -/
theorem jsonTop_stringify (m : Json) : jsonTop (stringify m) = some m := by
  unfold jsonTop
  have h := parseJson_stringify (sizeOf m) m le_rfl ((stringify m).length + 1) []
    (by omega) noDigitStart_nil
  rw [List.append_nil] at h
  rw [h]
  simp

theorem findSub_nil : findSub crlfcrlf [] = none := rfl

theorem parseLoopF_none {buf : List Char} (f : Nat) (h : findSub crlfcrlf buf = none) :
    parseLoopF (f + 1) buf = (buf, []) := by
  rw [parseLoopF.eq_def]
  simp [h]

theorem parseLoopF_bad {buf : List Char} {he : Nat} (f : Nat)
    (h1 : findSub crlfcrlf buf = some he) (h2 : extractCL (buf.take he) = none) :
    parseLoopF (f + 1) buf = ([], []) := by
  rw [parseLoopF.eq_def]
  simp [h1, h2]

theorem parseLoopF_wait {buf : List Char} {he n : Nat} (f : Nat)
    (h1 : findSub crlfcrlf buf = some he) (h2 : extractCL (buf.take he) = some n)
    (h3 : buf.length < he + 4 + n) :
    parseLoopF (f + 1) buf = (buf, []) := by
  rw [parseLoopF.eq_def]
  simp [h1, h2, h3]

theorem parseLoopF_step {buf : List Char} {he n : Nat} (f : Nat)
    (h1 : findSub crlfcrlf buf = some he) (h2 : extractCL (buf.take he) = some n)
    (h3 : ¬ buf.length < he + 4 + n) :
    parseLoopF (f + 1) buf
      = ((parseLoopF f (buf.drop (he + 4 + n))).1,
          (buf.drop (he + 4)).take n :: (parseLoopF f (buf.drop (he + 4 + n))).2) := by
  rw [parseLoopF.eq_def]
  simp [h1, h2, h3]

theorem findSub_pos_len {pat : List Char} (hp : pat ≠ []) :
    ∀ {l : List Char} {i : Nat}, findSub pat l = some i →
      pat.isPrefixOf (l.drop i) = true ∧ i + pat.length ≤ l.length := by
  intro l
  induction l with
  | nil =>
    intro i h
    rw [findSub] at h
    simp [List.isPrefixOf_iff_prefix, hp] at h
  | cons c t ih =>
    intro i h
    rw [findSub] at h
    by_cases hpre : pat.isPrefixOf (c :: t) = true
    · rw [if_pos hpre] at h
      simp only [Option.some.injEq] at h
      subst h
      refine ⟨by simpa using hpre, ?_⟩
      have := List.IsPrefix.length_le (List.isPrefixOf_iff_prefix.1 hpre)
      simpa using this
    · rw [if_neg hpre] at h
      rcases Option.map_eq_some'.1 h with ⟨j, hj, rfl⟩
      rcases ih hj with ⟨ha, hb⟩
      refine ⟨by simpa using ha, by simp; omega⟩

theorem parseLoopF_congr : ∀ f f' buf, buf.length ≤ f → buf.length ≤ f' →
    parseLoopF f buf = parseLoopF f' buf := by
  intro f
  induction f with
  | zero =>
    intro f' buf hf hf'
    have : buf = [] := by
      cases buf
      · rfl
      · simp at hf
    subst this
    cases f' with
    | zero => rfl
    | succ f' => rw [parseLoopF_none f' findSub_nil]; rfl
  | succ f ih =>
    intro f' buf hf hf'
    cases f' with
    | zero =>
      have : buf = [] := by
        cases buf
        · rfl
        · simp at hf'
      subst this
      rw [parseLoopF_none f findSub_nil]
      rfl
    | succ f' =>
      cases h1 : findSub crlfcrlf buf with
      | none => rw [parseLoopF_none f h1, parseLoopF_none f' h1]
      | some he =>
        cases h2 : extractCL (buf.take he) with
        | none => rw [parseLoopF_bad f h1 h2, parseLoopF_bad f' h1 h2]
        | some n =>
          by_cases h3 : buf.length < he + 4 + n
          · rw [parseLoopF_wait f h1 h2 h3, parseLoopF_wait f' h1 h2 h3]
          · rw [parseLoopF_step f h1 h2 h3, parseLoopF_step f' h1 h2 h3]
            have hlen : (buf.drop (he + 4 + n)).length ≤ f ∧
                (buf.drop (he + 4 + n)).length ≤ f' := by
              simp only [List.length_drop]
              omega
            rw [ih f' _ hlen.1 hlen.2]

theorem parseLoop_none {buf : List Char} (h : findSub crlfcrlf buf = none) :
    parseLoop buf = (buf, []) := by
  unfold parseLoop
  cases hl : buf.length with
  | zero => rfl
  | succ k => exact parseLoopF_none k h

theorem parseLoop_bad {buf : List Char} {he : Nat}
    (h1 : findSub crlfcrlf buf = some he) (h2 : extractCL (buf.take he) = none) :
    parseLoop buf = ([], []) := by
  have hlen := (findSub_pos_len (by decide) h1).2
  unfold parseLoop
  obtain ⟨k, hk⟩ : ∃ k, buf.length = k + 1 := ⟨buf.length - 1, by simp [crlfcrlf] at hlen; omega⟩
  rw [hk]
  exact parseLoopF_bad k h1 h2

theorem parseLoop_wait {buf : List Char} {he n : Nat}
    (h1 : findSub crlfcrlf buf = some he) (h2 : extractCL (buf.take he) = some n)
    (h3 : buf.length < he + 4 + n) :
    parseLoop buf = (buf, []) := by
  have hlen := (findSub_pos_len (by decide) h1).2
  unfold parseLoop
  obtain ⟨k, hk⟩ : ∃ k, buf.length = k + 1 := ⟨buf.length - 1, by simp [crlfcrlf] at hlen; omega⟩
  rw [hk]
  exact parseLoopF_wait k h1 h2 h3

theorem parseLoop_step {buf : List Char} {he n : Nat}
    (h1 : findSub crlfcrlf buf = some he) (h2 : extractCL (buf.take he) = some n)
    (h3 : ¬ buf.length < he + 4 + n) :
    parseLoop buf
      = ((parseLoop (buf.drop (he + 4 + n))).1,
          (buf.drop (he + 4)).take n :: (parseLoop (buf.drop (he + 4 + n))).2) := by
  have hlen := (findSub_pos_len (by decide) h1).2
  unfold parseLoop
  obtain ⟨k, hk⟩ : ∃ k, buf.length = k + 1 := ⟨buf.length - 1, by simp [crlfcrlf] at hlen; omega⟩
  rw [hk, parseLoopF_step k h1 h2 h3]
  have he1 : (buf.drop (he + 4 + n)).length ≤ k := by
    simp only [List.length_drop]
    omega
  rw [parseLoopF_congr k (buf.drop (he + 4 + n)).length _ he1 le_rfl]

theorem takeWhile_all {p : Char → Bool} {l : List Char} (h : ∀ c ∈ l, p c = true) :
    l.takeWhile p = l := by
  have := takeWhile_append_split l [] h (by intro c hc; simp at hc)
  simpa using this.1

theorem extractCL_cons (c : Char) (t : List Char) :
    extractCL (c :: t) =
      if clPrefix.isPrefixOf (c :: t) then
        if (((c :: t).drop 16).takeWhile Char.isDigit).isEmpty then extractCL t
        else some (digitsVal (((c :: t).drop 16).takeWhile Char.isDigit))
      else extractCL t := rfl

theorem extractCL_exact (n : Nat) : extractCL (clPrefix ++ natChars n) = some n := by
  have hpre : clPrefix.isPrefixOf (clPrefix ++ natChars n) = true :=
    List.isPrefixOf_iff_prefix.2 (List.prefix_append _ _)
  have hdrop : (clPrefix ++ natChars n).drop 16 = natChars n := by
    have := List.drop_left clPrefix (natChars n)
    simpa [clPrefix] using this
  have htw : (natChars n).takeWhile Char.isDigit = natChars n :=
    takeWhile_all (natChars_all_digit n)
  have hne : ((natChars n).takeWhile Char.isDigit).isEmpty = false := by
    rw [htw]
    rcases natChars_head_digit n with ⟨d, ds, hd, _⟩
    simp [hd]
  obtain ⟨c, t, e⟩ : ∃ c t, clPrefix ++ natChars n = c :: t := ⟨'C', _, rfl⟩
  rw [e, extractCL_cons, ← e, if_pos hpre, hdrop]
  rw [if_neg (by rw [hne]; simp), htw, digitsVal_natChars]

theorem clHeader_no_cr (n : Nat) : ∀ c ∈ clHeader n, c ≠ '\r' := by
  intro c hc
  rcases List.mem_append.1 hc with h | h
  · have hall : ∀ x ∈ clPrefix, x ≠ '\r' := by decide
    exact hall c h
  · exact natChars_no_cr n c h

theorem findSub_crlf_none {l : List Char} (h : ∀ c ∈ l, c ≠ '\r') :
    findSub crlfcrlf l = none := by
  induction l with
  | nil => rfl
  | cons c t ih =>
    have hp : crlfcrlf.isPrefixOf (c :: t) = false := by
      rw [show crlfcrlf = '\r' :: ['\n', '\r', '\n'] from rfl]
      exact isPrefixOf_cons_ne _ _ (h c (by simp))
    rw [findSub, if_neg (by simp [hp]), ih (fun x hx => h x (by simp [hx]))]
    rfl

theorem findSub_crlf_append {h : List Char} (hh : ∀ c ∈ h, c ≠ '\r') (r : List Char) :
    findSub crlfcrlf (h ++ (crlfcrlf ++ r)) = some h.length := by
  induction h with
  | nil =>
    have : crlfcrlf.isPrefixOf (crlfcrlf ++ r) = true :=
      List.isPrefixOf_iff_prefix.2 (List.prefix_append _ _)
    simp only [List.nil_append]
    obtain ⟨c, t, e⟩ : ∃ c t, crlfcrlf ++ r = c :: t := ⟨'\r', _, rfl⟩
    rw [e, findSub, ← e, if_pos this]
    rfl
  | cons c t ih =>
    have hp : crlfcrlf.isPrefixOf (c :: (t ++ (crlfcrlf ++ r))) = false := by
      rw [show crlfcrlf = '\r' :: ['\n', '\r', '\n'] from rfl]
      exact isPrefixOf_cons_ne _ _ (hh c (by simp))
    rw [List.cons_append, findSub, if_neg (by rw [hp]; decide),
      ih (fun x hx => hh x (by simp [hx]))]
    rfl

theorem findSub_some_head {l : List Char} {i : Nat} (h : findSub crlfcrlf l = some i) :
    l.get? i = some '\r' ∧ i + 4 ≤ l.length := by
  have hpl := findSub_pos_len (by decide) h
  constructor
  · have hpre := List.isPrefixOf_iff_prefix.1 hpl.1
    rcases hpre with ⟨s, hs⟩
    have hg : l.get? i = (l.drop i).get? 0 := by
      simp [List.get?_eq_getElem?, List.getElem?_drop]
    rw [hg, ← hs]
    rfl
  · simpa [crlfcrlf] using hpl.2

theorem findSub_none_of_no_cr_window {l : List Char}
    (h : ∀ i, i + 4 ≤ l.length → l.get? i ≠ some '\r') :
    findSub crlfcrlf l = none := by
  cases hf : findSub crlfcrlf l with
  | none => rfl
  | some i =>
    rcases findSub_some_head hf with ⟨h1, h2⟩
    exact absurd h1 (h i h2)

theorem parseLoop_frame (c r : List Char) :
    parseLoop (encodeFrame c ++ r) = ((parseLoop r).1, c :: (parseLoop r).2) := by
  have e1 : encodeFrame c ++ r = clHeader c.length ++ (crlfcrlf ++ (c ++ r)) := by
    simp [encodeFrame, encodeFrameN]
  have hfind : findSub crlfcrlf (encodeFrame c ++ r) = some (clHeader c.length).length := by
    rw [e1]
    exact findSub_crlf_append (clHeader_no_cr _) _
  have htake : (encodeFrame c ++ r).take (clHeader c.length).length = clHeader c.length := by
    rw [e1, List.take_left]
  have hext : extractCL ((encodeFrame c ++ r).take (clHeader c.length).length)
      = some c.length := by
    rw [htake]
    exact extractCL_exact c.length
  have hlen : (encodeFrame c ++ r).length
      = (clHeader c.length).length + 4 + c.length + r.length := by
    simp [encodeFrame, encodeFrameN, crlfcrlf]
    omega
  have hnot : ¬ (encodeFrame c ++ r).length
      < (clHeader c.length).length + 4 + c.length := by
    rw [hlen]
    omega
  rw [parseLoop_step hfind hext hnot]
  have e2 : encodeFrame c ++ r = (clHeader c.length ++ crlfcrlf) ++ (c ++ r) := by
    simp [encodeFrame, encodeFrameN]
  have hdrop1 : (encodeFrame c ++ r).drop ((clHeader c.length).length + 4) = c ++ r := by
    rw [e2, show (clHeader c.length).length + 4 = (clHeader c.length ++ crlfcrlf).length by
      simp [crlfcrlf]]
    exact List.drop_left _ _
  have e3 : encodeFrame c ++ r = ((clHeader c.length ++ crlfcrlf) ++ c) ++ r := by
    simp [encodeFrame, encodeFrameN]
  have hdrop2 : (encodeFrame c ++ r).drop ((clHeader c.length).length + 4 + c.length) = r := by
    rw [e3, show (clHeader c.length).length + 4 + c.length
        = ((clHeader c.length ++ crlfcrlf) ++ c).length by simp [crlfcrlf]; omega]
    exact List.drop_left _ _
  rw [hdrop1, hdrop2, List.take_left]

theorem encodeFrame_length (c : List Char) :
    (encodeFrame c).length = (clHeader c.length).length + 4 + c.length := by
  simp [encodeFrame, encodeFrameN, clHeader, crlfcrlf]
  omega

theorem parseLoop_of_take {c : List Char} {m : Nat} (hm : m < (encodeFrame c).length) :
    parseLoop ((encodeFrame c).take m) = ((encodeFrame c).take m, []) := by
  have hElen := encodeFrame_length c
  by_cases h1 : m < (clHeader c.length).length + 4
  · apply parseLoop_none
    apply findSub_none_of_no_cr_window
    intro i hi
    have hmE : m ≤ (encodeFrame c).length := by omega
    have hlen : ((encodeFrame c).take m).length = m := by
      rw [List.length_take]
      omega
    rw [hlen] at hi
    have him : i < m := by omega
    rw [List.get?_eq_getElem?, List.getElem?_take, if_pos him]
    have hiHl : i < (clHeader c.length).length := by omega
    have e : encodeFrame c = clHeader c.length ++ (crlfcrlf ++ c) := rfl
    rw [e, List.getElem?_append, if_pos hiHl]
    intro hsome
    exact clHeader_no_cr c.length _ (List.getElem?_mem hsome) rfl
  · have h2 : (clHeader c.length).length + 4 ≤ m := by omega
    have hsplit : (encodeFrame c).take m
        = clHeader c.length
          ++ (crlfcrlf ++ c.take (m - ((clHeader c.length).length + 4))) := by
      have e : encodeFrame c = (clHeader c.length ++ crlfcrlf) ++ c := by
        simp [encodeFrame, encodeFrameN]
      rw [e, List.take_append_eq_append_take,
        List.take_of_length_le (by simp [crlfcrlf]; omega)]
      simp [crlfcrlf]
    have hfind : findSub crlfcrlf ((encodeFrame c).take m) = some (clHeader c.length).length := by
      rw [hsplit]
      exact findSub_crlf_append (clHeader_no_cr _) _
    have hext : extractCL (((encodeFrame c).take m).take (clHeader c.length).length)
        = some c.length := by
      rw [hsplit, List.take_left]
      exact extractCL_exact c.length
    apply parseLoop_wait hfind hext
    rw [List.length_take]
    omega

theorem parseLoop_frames (G : List (List Char)) (X : List Char) :
    parseLoop ((G.map encodeFrame).flatten ++ X)
      = ((parseLoop X).1, G ++ (parseLoop X).2) := by
  induction G with
  | nil => simp
  | cons g G ih =>
    rw [List.map_cons, List.flatten_cons, List.append_assoc, parseLoop_frame, ih]
    rfl

/-- On a buffer that is a prefix of a well-formed frame stream, the
`parseMessages` loop extracts exactly the complete frames and leaves the
partial remainder. -/
theorem parseLoop_decomp : ∀ (fs : List (List Char)) (B : List Char),
    B <+: (fs.map encodeFrame).flatten →
    B = ((parseLoop B).2.map encodeFrame).flatten ++ (parseLoop B).1 := by
  intro fs
  induction fs with
  | nil =>
    intro B hB
    simp only [List.map_nil, List.flatten_nil, List.prefix_nil] at hB
    subst hB
    rw [show parseLoop [] = (([] : List Char), ([] : List (List Char))) from rfl]
    rfl
  | cons f fs ih =>
    intro B hB
    simp only [List.map_cons, List.flatten_cons] at hB
    by_cases hlen : B.length < (encodeFrame f).length
    · have hBf : B <+: encodeFrame f :=
        List.prefix_of_prefix_length_le hB (List.prefix_append _ _) (le_of_lt hlen)
      have hB2 : B = (encodeFrame f).take B.length := List.prefix_iff_eq_take.1 hBf
      rw [hB2, parseLoop_of_take hlen]
      rfl
    · have hfB : encodeFrame f <+: B := by
        refine List.prefix_of_prefix_length_le (List.prefix_append _ _) hB ?_
        omega
      obtain ⟨B', rfl⟩ := hfB
      have hB' : B' <+: (fs.map encodeFrame).flatten := by
        rcases hB with ⟨s, hs⟩
        rw [List.append_assoc] at hs
        exact ⟨s, List.append_cancel_left hs⟩
      rw [parseLoop_frame f B']
      have hd := ih B' hB'
      simp only [List.map_cons, List.flatten_cons, List.append_assoc]
      rw [← hd]

theorem feedAll_characterization (fs : List (List Char)) :
    ∀ (cs : List (List Char)) (P : List Char) (M : List (List Char)),
      P ++ cs.flatten <+: (fs.map encodeFrame).flatten →
      feedAll ⟨(parseLoop P).1, M ++ (parseLoop P).2⟩ cs
        = ⟨(parseLoop (P ++ cs.flatten)).1, M ++ (parseLoop (P ++ cs.flatten)).2⟩ := by
  intro cs
  induction cs with
  | nil =>
    intro P M _
    simp [feedAll]
  | cons c cs ih =>
    intro P M h
    have hP : P <+: (fs.map encodeFrame).flatten :=
      List.IsPrefix.trans (List.prefix_append _ _) h
    have hdec := parseLoop_decomp fs P hP
    show feedAll (feed ⟨(parseLoop P).1, M ++ (parseLoop P).2⟩ c) cs = _
    have hstep : feed ⟨(parseLoop P).1, M ++ (parseLoop P).2⟩ c
        = ⟨(parseLoop (P ++ c)).1, M ++ (parseLoop (P ++ c)).2⟩ := by
      unfold feed
      have e : P ++ c = ((parseLoop P).2.map encodeFrame).flatten ++ ((parseLoop P).1 ++ c) := by
        conv_lhs => rw [hdec]
        simp [List.append_assoc]
      rw [e, parseLoop_frames]
      simp
    rw [hstep]
    have h' : (P ++ c) ++ cs.flatten <+: (fs.map encodeFrame).flatten := by
      simpa [List.append_assoc] using h
    have hih := ih (P ++ c) M h'
    rw [hih]
    simp [List.append_assoc]

/-- C2, counterexample: there is a byte sequence and a split of it into two
chunks for which feeding the chunks one at a time yields a different sequence
of decoded messages than feeding the whole sequence as one chunk (the chunked
run decodes the number `77`; the single-chunk run decodes nothing). -/
theorem c2_chunk_invariance_counterexample :
    ¬ (decodedMsgs (feedAll codecInit [malformedChunkA, malformedChunkB])
        = decodedMsgs (feedAll codecInit [malformedChunkA ++ malformedChunkB])) := by
  intro hcontra
  have h1 : decodedMsgs (feedAll codecInit [malformedChunkA, malformedChunkB])
      = [Json.num 77] := rfl
  have h2 : decodedMsgs (feedAll codecInit [malformedChunkA ++ malformedChunkB]) = [] := rfl
  rw [h1, h2] at hcontra
  exact List.noConfusion hcontra

/-- C2 (amended): for every byte sequence that is a prefix of a concatenation
of well-formed `Content-Length` frames (so the destructive malformed-header
recovery path is never taken), feeding the chunks one at a time to the decoder
yields exactly the same decoder state — and hence the same sequence of decoded
messages — as feeding the entire byte sequence as one single chunk. -/
theorem c2_chunk_invariance_amended (fs cs : List (List Char))
    (h : cs.flatten <+: (fs.map encodeFrame).flatten) :
    feedAll codecInit cs = feedAll codecInit [cs.flatten]
      ∧ decodedMsgs (feedAll codecInit cs) = decodedMsgs (feedAll codecInit [cs.flatten]) := by
  have h1 := feedAll_characterization fs cs [] [] (by simpa using h)
  have h2 := feedAll_characterization fs [cs.flatten] [] [] (by simpa using h)
  have e : codecInit = ⟨(parseLoop []).1, [] ++ (parseLoop []).2⟩ := rfl
  have hmain : feedAll codecInit cs = feedAll codecInit [cs.flatten] := by
    rw [e, h1, h2]
    simp
  exact ⟨hmain, by rw [hmain]⟩

/-- C2, witness: a concrete two-frame stream split at an offset inside the
first header decodes identically chunked and unchunked. -/
theorem c2_chunk_invariance_witness :
    (chunksAB.flatten <+: ([frameA, frameB].map encodeFrame).flatten)
      ∧ feedAll codecInit chunksAB = feedAll codecInit [chunksAB.flatten] := by
  refine ⟨by decide, ?_⟩
  exact (c2_chunk_invariance_amended [frameA, frameB] chunksAB (by decide)).1

/-- C3 (amended): for every message whose serialized body has equal UTF-8 byte
length and string length (every ASCII body), encoding it into a
length-prefixed frame and feeding the bytes back through the decoder yields
exactly one decoded message, deep-equal to the original, with nothing left in
the buffer. -/
theorem c3_encode_decode_roundtrip_amended (m : Json)
    (h : utf8Len (stringify m) = (stringify m).length) :
    decodeStream (encodeMessage m) = [m] ∧ (parseLoop (encodeMessage m)).1 = [] := by
  have e : encodeMessage m = encodeFrame (stringify m) := by
    unfold encodeMessage encodeFrame
    rw [h]
  have hp : parseLoop (encodeFrame (stringify m) ++ [])
      = ((parseLoop []).1, stringify m :: (parseLoop []).2) := parseLoop_frame _ _
  rw [List.append_nil] at hp
  rw [show parseLoop [] = (([] : List Char), ([] : List (List Char))) from rfl] at hp
  constructor
  · show (parseLoop (encodeMessage m)).2.filterMap jsonTop = [m]
    rw [e, hp]
    simp [jsonTop_stringify]
  · rw [e, hp]

/-- C3, counterexample: for the message `"é"` (a one-character non-ASCII
string), the encoder's `Content-Length` states 4 bytes while the body is 3
string positions long, so the decoder keeps waiting for data and decodes no
message at all — not one message deep-equal to the original. -/
theorem c3_encode_decode_counterexample :
    decodeStream (encodeMessage nonAsciiMsg) ≠ [nonAsciiMsg] := by
  intro hcontra
  have hs : stringify nonAsciiMsg = ['"', 'é', '"'] := by
    rw [show nonAsciiMsg = Json.str ['é'] from rfl, stringify_str]
    decide
  have h0 : decodeStream (encodeMessage nonAsciiMsg) = [] := by
    rw [show encodeMessage nonAsciiMsg
        = encodeFrameN (utf8Len (stringify nonAsciiMsg)) (stringify nonAsciiMsg) from rfl, hs]
    rfl
  rw [h0] at hcontra
  exact List.noConfusion hcontra

/-- C3, witness: the message `7` encodes and decodes back to itself. -/
theorem c3_encode_decode_witness :
    utf8Len (stringify (Json.num 7)) = (stringify (Json.num 7)).length
      ∧ decodeStream (encodeMessage (Json.num 7)) = [Json.num 7] := by
  have hs : stringify (Json.num 7) = ['7'] := by
    rw [stringify_num]
    decide
  have hh : utf8Len (stringify (Json.num 7)) = (stringify (Json.num 7)).length := by
    rw [hs]
    decide
  exact ⟨hh, (c3_encode_decode_roundtrip_amended (Json.num 7) hh).1⟩

theorem timeoutArmedB_send {evts : List TimedEvent} {i t : Nat} {cmd : String}
    (h : evts.get? i = some (t, CorrEvent.send cmd)) (hb : timeoutArmedB evts i = true) :
    ∃ j, i < j ∧ evts.get? j
      = some (t + 30000, CorrEvent.timeout (runCorr (evts.take i)).requestSeq) := by
  unfold timeoutArmedB at hb
  rw [h] at hb
  simp only [List.any_eq_true, List.mem_range, Bool.and_eq_true, decide_eq_true_eq] at hb
  obtain ⟨j, _, hlt, heq⟩ := hb
  exact ⟨j, hlt, heq⟩

theorem lookup_some_mem {l : List (Nat × String)} {a : Nat} {b : String}
    (h : l.lookup a = some b) : (a, b) ∈ l := by
  induction l with
  | nil => simp [List.lookup] at h
  | cons p t ih =>
    rw [List.lookup] at h
    by_cases hab : a = p.1
    · subst hab
      simp at h
      subst h
      simp
    · have : (a == p.1) = false := by simp [hab]
      rw [this] at h
      simp only [List.mem_cons]
      exact Or.inr (ih h)

theorem mem_keys_lookup {l : List (Nat × String)} {a : Nat}
    (h : a ∈ l.map Prod.fst) : ∃ b, l.lookup a = some b := by
  induction l with
  | nil => simp at h
  | cons p t ih =>
    rcases List.mem_map.1 h with ⟨q, hq, rfl⟩
    rcases List.mem_cons.1 hq with rfl | hq2
    · exact ⟨q.2, by rw [List.lookup]; simp⟩
    · by_cases hab : q.1 = p.1
      · exact ⟨p.2, by rw [List.lookup]; simp [hab]⟩
      · have : (q.1 == p.1) = false := by simp [hab]
        rcases ih (List.mem_map_of_mem _ hq2) with ⟨b, hb⟩
        exact ⟨b, by rw [List.lookup, this]; exact hb⟩

theorem lookup_none_of_not_mem {l : List (Nat × String)} {a : Nat}
    (h : ¬ a ∈ l.map Prod.fst) : l.lookup a = none := by
  cases hl : l.lookup a with
  | none => rfl
  | some b => exact absurd (List.mem_map_of_mem Prod.fst (lookup_some_mem hl)) h

theorem corrInv_init : CorrInv corrInit := by
  constructor <;> simp [corrInit]

theorem corrInv_step {st : CorrState} (h : CorrInv st) (e : TimedEvent) :
    CorrInv (corrStep st e) := by
  obtain ⟨t, ev⟩ := e
  obtain ⟨h1, h2, h3, h4, h5, h6, h7, h8, h9⟩ := h
  cases ev with
  | send cmd =>
    simp only [corrStep]
    have hnotin : ¬ st.requestSeq ∈ st.pending.map Prod.fst := by
      intro hmem
      rcases List.mem_map.1 hmem with ⟨p, hp, he⟩
      have := h1 p (h3 p hp)
      omega
    have hnotout : ¬ st.requestSeq ∈ st.outcomes.map Prod.fst := by
      intro hmem
      rcases List.mem_map.1 hmem with ⟨q, hq, he⟩
      rcases List.mem_map.1 (h6 q hq) with ⟨p, hp, he2⟩
      have := h1 p hp
      omega
    constructor
    · intro p hp
      show p.1 < st.requestSeq + 1
      rcases List.mem_append.1 hp with hp | hp
      · have := h1 p hp
        omega
      · simp at hp
        subst hp
        omega
    · rw [List.map_append, List.pairwise_append]
      refine ⟨h2, by simp, ?_⟩
      intro a ha b hb
      simp only [List.map_cons, List.map_nil, List.mem_singleton] at hb
      subst hb
      rcases List.mem_map.1 ha with ⟨p, hp, rfl⟩
      exact h1 p hp
    · intro p hp
      rcases List.mem_append.1 hp with hp | hp
      · exact List.mem_append.2 (Or.inl (h3 p hp))
      · exact List.mem_append.2 (Or.inr hp)
    · rw [List.map_append, List.nodup_append]
      refine ⟨h4, by simp, ?_⟩
      intro a ha hb
      simp only [List.map_cons, List.map_nil, List.mem_singleton] at hb
      subst hb
      exact hnotin ha
    · exact h5
    · intro q hq
      exact List.mem_map.2 (by
        rcases List.mem_map.1 (h6 q hq) with ⟨p, hp, he⟩
        exact ⟨p, List.mem_append.2 (Or.inl hp), he⟩)
    · intro s hs hout
      rw [List.map_append] at hs
      rcases List.mem_append.1 hs with hs | hs
      · exact h7 s hs hout
      · simp only [List.map_cons, List.map_nil, List.mem_singleton] at hs
        subst hs
        exact hnotout hout
    · intro p hp
      rcases List.mem_append.1 hp with hp | hp
      · rcases h8 p hp with hc | hc
        · exact Or.inl (by rw [List.map_append]; exact List.mem_append.2 (Or.inl hc))
        · exact Or.inr hc
      · simp at hp
        subst hp
        exact Or.inl (by rw [List.map_append]; simp)
    · intro q hq
      rcases h9 q hq with hf | hf | ⟨cmd2, hc, he⟩
      · exact Or.inl hf
      · exact Or.inr (Or.inl hf)
      · exact Or.inr (Or.inr ⟨cmd2, List.mem_append.2 (Or.inl hc), he⟩)
  | response r =>
    simp only [corrStep]
    cases hl : st.pending.lookup r.request_seq with
    | none => exact ⟨h1, h2, h3, h4, h5, h6, h7, h8, h9⟩
    | some c =>
      dsimp only
      have hmem : (r.request_seq, c) ∈ st.pending := lookup_some_mem hl
      have hkey : r.request_seq ∈ st.pending.map Prod.fst := List.mem_map_of_mem _ hmem
      have hfsub : ∀ p, p ∈ st.pending.filter (fun p => p.1 != r.request_seq) → p ∈ st.pending :=
        fun p hp => (List.mem_filter.1 hp).1
      have hfkey : ∀ s, s ∈ (st.pending.filter (fun p => p.1 != r.request_seq)).map Prod.fst →
          s ∈ st.pending.map Prod.fst ∧ s ≠ r.request_seq := by
        intro s hs
        rcases List.mem_map.1 hs with ⟨p, hp, rfl⟩
        rcases List.mem_filter.1 hp with ⟨hp1, hp2⟩
        exact ⟨List.mem_map_of_mem _ hp1, by simpa using hp2⟩
      constructor
      · exact h1
      · exact h2
      · intro p hp
        exact h3 p (hfsub p hp)
      · exact List.Nodup.sublist (List.Sublist.map _ (List.filter_sublist _)) h4
      · rw [List.map_append, List.nodup_append]
        refine ⟨h5, by simp, ?_⟩
        intro a ha hb
        simp only [List.map_cons, List.map_nil, List.mem_singleton] at hb
        subst hb
        exact h7 _ hkey ha
      · intro q hq
        rcases List.mem_append.1 hq with hq | hq
        · exact h6 q hq
        · simp only [List.mem_singleton] at hq
          subst hq
          exact List.mem_map_of_mem _ (h3 _ hmem)
      · intro s hs hout
        rcases hfkey s hs with ⟨hs1, hs2⟩
        rw [List.map_append] at hout
        rcases List.mem_append.1 hout with hout | hout
        · exact h7 s hs1 hout
        · simp only [List.map_cons, List.map_nil, List.mem_singleton] at hout
          exact hs2 hout
      · intro p hp
        by_cases hps : p.1 = r.request_seq
        · exact Or.inr (by rw [List.map_append]; simp [hps])
        · rcases h8 p hp with hc | hc
          · refine Or.inl ?_
            rcases List.mem_map.1 hc with ⟨q, hq, he⟩
            refine List.mem_map.2 ⟨q, List.mem_filter.2 ⟨hq, ?_⟩, he⟩
            simp [he, hps]
          · exact Or.inr (by rw [List.map_append]; exact List.mem_append.2 (Or.inl hc))
      · intro q hq
        rcases List.mem_append.1 hq with hq | hq
        · exact h9 q hq
        · simp only [List.mem_singleton] at hq
          subst hq
          by_cases hrs : r.success = true
          · exact Or.inl ⟨r, rfl, hrs, by simp [hrs]⟩
          · refine Or.inr (Or.inl ⟨r, rfl, by simpa using hrs, by simp [hrs]⟩)
  | timeout s =>
    simp only [corrStep]
    cases hl : st.pending.lookup s with
    | none => exact ⟨h1, h2, h3, h4, h5, h6, h7, h8, h9⟩
    | some c =>
      dsimp only
      have hmem : (s, c) ∈ st.pending := lookup_some_mem hl
      have hkey : s ∈ st.pending.map Prod.fst := List.mem_map_of_mem _ hmem
      have hfkey : ∀ a, a ∈ (st.pending.filter (fun p => p.1 != s)).map Prod.fst →
          a ∈ st.pending.map Prod.fst ∧ a ≠ s := by
        intro a ha
        rcases List.mem_map.1 ha with ⟨p, hp, rfl⟩
        rcases List.mem_filter.1 hp with ⟨hp1, hp2⟩
        exact ⟨List.mem_map_of_mem _ hp1, by simpa using hp2⟩
      constructor
      · exact h1
      · exact h2
      · intro p hp
        exact h3 p ((List.mem_filter.1 hp).1)
      · exact List.Nodup.sublist (List.Sublist.map _ (List.filter_sublist _)) h4
      · rw [List.map_append, List.nodup_append]
        refine ⟨h5, by simp, ?_⟩
        intro a ha hb
        simp only [List.map_cons, List.map_nil, List.mem_singleton] at hb
        subst hb
        exact h7 _ hkey ha
      · intro q hq
        rcases List.mem_append.1 hq with hq | hq
        · exact h6 q hq
        · simp only [List.mem_singleton] at hq
          subst hq
          exact List.mem_map_of_mem _ (h3 _ hmem)
      · intro a ha hout
        rcases hfkey a ha with ⟨ha1, ha2⟩
        rw [List.map_append] at hout
        rcases List.mem_append.1 hout with hout | hout
        · exact h7 a ha1 hout
        · simp only [List.map_cons, List.map_nil, List.mem_singleton] at hout
          exact ha2 hout
      · intro p hp
        by_cases hps : p.1 = s
        · exact Or.inr (by rw [List.map_append]; simp [hps])
        · rcases h8 p hp with hc | hc
          · refine Or.inl ?_
            rcases List.mem_map.1 hc with ⟨q, hq, he⟩
            refine List.mem_map.2 ⟨q, List.mem_filter.2 ⟨hq, ?_⟩, he⟩
            simp [he, hps]
          · exact Or.inr (by rw [List.map_append]; exact List.mem_append.2 (Or.inl hc))
      · intro q hq
        rcases List.mem_append.1 hq with hq | hq
        · exact h9 q hq
        · simp only [List.mem_singleton] at hq
          subst hq
          exact Or.inr (Or.inr ⟨c, h3 _ hmem, rfl⟩)

theorem corrInv_foldl : ∀ (l : List TimedEvent) (st : CorrState), CorrInv st →
    CorrInv (l.foldl corrStep st) := by
  intro l
  induction l with
  | nil => intro st h; exact h
  | cons e l ih => intro st h; exact ih _ (corrInv_step h e)

theorem corrInv_run (evts : List TimedEvent) : CorrInv (runCorr evts) :=
  corrInv_foldl evts corrInit corrInv_init

theorem corrStep_sent_mono {st : CorrState} {p : Nat × String} (h : p ∈ st.sent)
    (e : TimedEvent) : p ∈ (corrStep st e).sent := by
  obtain ⟨t, ev⟩ := e
  cases ev with
  | send cmd => exact List.mem_append.2 (Or.inl h)
  | response r =>
    simp only [corrStep]
    cases st.pending.lookup r.request_seq <;> exact h
  | timeout s =>
    simp only [corrStep]
    cases st.pending.lookup s <;> exact h

theorem corrStep_out_mono {st : CorrState} {q : Nat × Outcome} (h : q ∈ st.outcomes)
    (e : TimedEvent) : q ∈ (corrStep st e).outcomes := by
  obtain ⟨t, ev⟩ := e
  cases ev with
  | send cmd => exact h
  | response r =>
    simp only [corrStep]
    cases st.pending.lookup r.request_seq
    · exact h
    · exact List.mem_append.2 (Or.inl h)
  | timeout s =>
    simp only [corrStep]
    cases st.pending.lookup s
    · exact h
    · exact List.mem_append.2 (Or.inl h)

theorem foldl_sent_mono : ∀ (l : List TimedEvent) (st : CorrState) (p : Nat × String),
    p ∈ st.sent → p ∈ (l.foldl corrStep st).sent := by
  intro l
  induction l with
  | nil => intro st p h; exact h
  | cons e l ih => intro st p h; exact ih _ p (corrStep_sent_mono h e)

theorem foldl_out_mono : ∀ (l : List TimedEvent) (st : CorrState) (q : Nat × Outcome),
    q ∈ st.outcomes → q ∈ (l.foldl corrStep st).outcomes := by
  intro l
  induction l with
  | nil => intro st q h; exact h
  | cons e l ih => intro st q h; exact ih _ q (corrStep_out_mono h e)

theorem runCorr_take_succ {evts : List TimedEvent} {j : Nat} {e : TimedEvent}
    (h : evts.get? j = some e) :
    runCorr (evts.take (j + 1)) = corrStep (runCorr (evts.take j)) e := by
  rw [List.get?_eq_getElem?] at h
  rw [runCorr, List.take_succ, h, List.foldl_append]
  rfl

theorem runCorr_take_le {evts : List TimedEvent} {i k : Nat} (h : i ≤ k) :
    runCorr (evts.take k) = ((evts.take k).drop i).foldl corrStep (runCorr (evts.take i)) := by
  conv_lhs => rw [show evts.take k = evts.take i ++ (evts.take k).drop i from by
    rw [show evts.take i = (evts.take k).take i from by rw [List.take_take, Nat.min_eq_left h]]
    exact (List.take_append_drop i (evts.take k)).symm]
  rw [runCorr, List.foldl_append]
  rfl

theorem origin_extend {as : List TimedEvent} {e : TimedEvent} {p : Nat × String}
    (h : ∃ i t, as.get? i = some (t, CorrEvent.send p.2)
      ∧ (runCorr (as.take i)).requestSeq = p.1 ∧ i < as.length) :
    ∃ i t, (as ++ [e]).get? i = some (t, CorrEvent.send p.2)
      ∧ (runCorr ((as ++ [e]).take i)).requestSeq = p.1 ∧ i < (as ++ [e]).length := by
  obtain ⟨i, t, hget, hrs, hlt⟩ := h
  refine ⟨i, t, ?_, ?_, by simp; omega⟩
  · rw [List.get?_eq_getElem?] at hget ⊢
    rw [List.getElem?_append, if_pos hlt]
    exact hget
  · have ht : (as ++ [e]).take i = as.take i := by
      rw [List.take_append_eq_append_take]
      have h0 : i - as.length = 0 := by omega
      rw [h0]
      simp
    rw [ht]
    exact hrs

theorem sent_origin : ∀ (evts : List TimedEvent) (p : Nat × String), p ∈ (runCorr evts).sent →
    ∃ i t, evts.get? i = some (t, CorrEvent.send p.2)
      ∧ (runCorr (evts.take i)).requestSeq = p.1 ∧ i < evts.length := by
  intro evts
  induction evts using List.reverseRecOn with
  | nil =>
    intro p hp
    simp [runCorr, corrInit] at hp
  | append_singleton as e ih =>
    intro p hp
    rw [runCorr, List.foldl_append] at hp
    obtain ⟨t, ev⟩ := e
    cases ev with
    | send cmd =>
      rcases List.mem_append.1 hp with hp | hp
      · exact origin_extend (ih p hp)
      · simp only [List.mem_singleton] at hp
        refine ⟨as.length, t, ?_, ?_, by simp⟩
        · rw [List.get?_eq_getElem?, List.getElem?_append, if_neg (by omega)]
          simp [hp]
        · rw [List.take_left]
          rw [hp]
          rfl
    | response r =>
      have hp' : p ∈ (runCorr as).sent := by
        revert hp
        show p ∈ (corrStep (runCorr as) (t, CorrEvent.response r)).sent → _
        simp only [corrStep]
        cases (runCorr as).pending.lookup r.request_seq <;> exact id
      exact origin_extend (ih p hp')
    | timeout s =>
      have hp' : p ∈ (runCorr as).sent := by
        revert hp
        show p ∈ (corrStep (runCorr as) (t, CorrEvent.timeout s)).sent → _
        simp only [corrStep]
        cases (runCorr as).pending.lookup s <;> exact id
      exact origin_extend (ih p hp')

/-- C1: for every request sent by the correlator, exactly one outcome is ever
delivered to its Pending Request.  On every valid trace (one where the
30-second timer armed by each send fires, as `setTimeout` guarantees):
(1) every assigned sequence number receives exactly one outcome;
(2) every delivered outcome is a resolution with the response of a
`success = true` response, a rejection carrying the adapter's message
defaulted to `Request failed`, or a rejection with the timeout error naming
the command;
(3) a response arriving for a sequence number whose outcome was already
delivered leaves the correlator state completely unchanged — it is dropped
without error and without reviving the request. -/
theorem c1_correlator_exactly_one_outcome (evts : List TimedEvent) (hv : ValidTrace evts) :
    (∀ s, s ∈ (runCorr evts).sent.map Prod.fst →
        ((runCorr evts).outcomes.map Prod.fst).count s = 1)
    ∧ (∀ q ∈ (runCorr evts).outcomes,
        (∃ r : DapResponse, r.request_seq = q.1 ∧ r.success = true ∧ q.2 = Outcome.resolved r)
        ∨ (∃ r : DapResponse, r.request_seq = q.1 ∧ r.success = false
            ∧ q.2 = Outcome.rejected (failMsg r.message))
        ∨ (∃ cmd, (q.1, cmd) ∈ (runCorr evts).sent
            ∧ q.2 = Outcome.rejected (timeoutMsg cmd)))
    ∧ (∀ k r t, r.request_seq ∈ ((runCorr (evts.take k)).outcomes.map Prod.fst) →
        corrStep (runCorr (evts.take k)) (t, CorrEvent.response r) = runCorr (evts.take k)) := by
  refine ⟨?_, (corrInv_run evts).forms, ?_⟩
  · intro s hs
    rcases List.mem_map.1 hs with ⟨p, hp, rfl⟩
    rcases sent_origin evts p hp with ⟨i, t, hget, hrs, hilt⟩
    have harm := timeoutArmedB_send hget (hv i hilt)
    rw [hrs] at harm
    obtain ⟨j, hij, hjget⟩ := harm
    have hjlt : j < evts.length := by
      by_contra hge
      rw [List.get?_eq_getElem?, List.getElem?_eq_none (by omega)] at hjget
      exact Option.noConfusion hjget
    have hstep_i := runCorr_take_succ hget
    have hpi : p ∈ (runCorr (evts.take (i + 1))).sent := by
      rw [hstep_i]
      refine List.mem_append.2 (Or.inr ?_)
      rw [hrs]
      simp
    have hpj : p ∈ (runCorr (evts.take j)).sent := by
      rw [runCorr_take_le (show i + 1 ≤ j by omega)]
      exact foldl_sent_mono _ _ _ hpi
    have hstep_j := runCorr_take_succ hjget
    have hout : p.1 ∈ (runCorr (evts.take (j + 1))).outcomes.map Prod.fst := by
      have hinv := corrInv_run (evts.take j)
      rcases hinv.cover p hpj with hc | hc
      · rw [hstep_j]
        simp only [corrStep]
        rcases mem_keys_lookup hc with ⟨cmd2, hcmd⟩
        rw [hcmd]
        dsimp only
        rw [List.map_append]
        simp
      · rw [hstep_j]
        rcases List.mem_map.1 hc with ⟨q, hq, he⟩
        exact List.mem_map.2 ⟨q, corrStep_out_mono hq _, he⟩
    have houtfin : p.1 ∈ (runCorr evts).outcomes.map Prod.fst := by
      have he : runCorr evts = runCorr (evts.take evts.length) := by rw [List.take_length]
      rw [he, runCorr_take_le (show j + 1 ≤ evts.length by omega)]
      rcases List.mem_map.1 hout with ⟨q, hq, hqe⟩
      exact List.mem_map.2 ⟨q, foldl_out_mono _ _ _ hq, hqe⟩
    exact List.count_eq_one_of_mem (corrInv_run evts).outcomes_nodup houtfin
  · intro k r t hmem
    have hinv := corrInv_run (evts.take k)
    have hnone : (runCorr (evts.take k)).pending.lookup r.request_seq = none := by
      apply lookup_none_of_not_mem
      intro hpk
      exact hinv.disj _ hpk hmem
    simp [corrStep, hnone]

/-- C1, witness: a concrete valid trace (send, its response, the timer firing)
in which sequence number 1 receives exactly one outcome. -/
theorem c1_correlator_witness :
    ValidTrace corrTrace0
      ∧ ((runCorr corrTrace0).outcomes.map Prod.fst).count 1 = 1 := by
  have hv : ValidTrace corrTrace0 := by decide
  exact ⟨hv, (c1_correlator_exactly_one_outcome corrTrace0 hv).1 1 (by decide)⟩

/-- C4: within one session, the sequence numbers assigned to successively sent
requests are strictly increasing (in send order) and never reused, and the
pending table holds at most one Pending Request per sequence number, in every
reachable correlator state. -/
theorem c4_sequence_numbers (evts : List TimedEvent) :
    ((runCorr evts).sent.map Prod.fst).Pairwise (· < ·)
    ∧ ((runCorr evts).sent.map Prod.fst).Nodup
    ∧ ((runCorr evts).pending.map Prod.fst).Nodup := by
  have hinv := corrInv_run evts
  refine ⟨hinv.sent_sorted, ?_, hinv.pending_nodup⟩
  exact List.Pairwise.imp (fun h => Nat.ne_of_lt h) hinv.sent_sorted

/-- C5, counterexample: `setBreakpoint`, called on a session whose thread
identifier is absent (process launched, no stop yet), does not fail — it
performs the `setBreakpoints` exchange and returns success, contradicting the
claim that every steady-state operation including set-breakpoint fails
immediately with no transport I/O when no thread identifier is set. -/
theorem c5_precondition_counterexample :
    (⟨true, none, none⟩ : DbgState).threadId = none
    ∧ (setBreakpointOp ⟨true, none, none⟩ adapterBp ⟨mainRs, 10⟩).resp.success = true
    ∧ (setBreakpointOp ⟨true, none, none⟩ adapterBp ⟨mainRs, 10⟩).io
        = [IOAction.send (.setBreakpoints mainRs 10)] := by
  refine ⟨rfl, rfl, rfl⟩

/-- C5 (amended): `continue`, `step-over` and `inspect-variables`, called
without an active thread identifier, return the described failure
`No thread ID` immediately, leave the state unchanged and perform no
transport I/O; `set-breakpoint`, by contrast, has no thread precondition and
performs its exchange whenever a subprocess exists. -/
theorem c5_precondition_amended (st : DbgState) (a : Adapter) (cfg : SetBreakpointConfig)
    (h : st.threadId = none) :
    continueOp st a = ⟨{ success := false, error := some noThreadMsg }, st, []⟩
    ∧ stepOverOp st a = ⟨{ success := false, error := some noThreadMsg }, st, []⟩
    ∧ getVariablesOp st a = ⟨{ success := false, error := some noThreadMsg }, st, []⟩
    ∧ (st.process = true → (setBreakpointOp st a cfg).io ≠ []) := by
  refine ⟨?_, ?_, ?_, ?_⟩
  · unfold continueOp
    rw [h]
  · unfold stepOverOp
    rw [h]
  · unfold getVariablesOp
    rw [h]
  · intro hp
    unfold setBreakpointOp
    cases a.setBreakpointsR cfg.file cfg.line <;> simp [issue, hp]

/-- C5, witness: the amended claim at a concrete thread-less state. -/
theorem c5_precondition_witness :
    (⟨true, none, none⟩ : DbgState).threadId = none
    ∧ continueOp ⟨true, none, none⟩ adapterNone
      = ⟨{ success := false, error := some noThreadMsg }, ⟨true, none, none⟩, []⟩ :=
  ⟨rfl, (c5_precondition_amended ⟨true, none, none⟩ adapterNone ⟨mainRs, 10⟩ rfl).1⟩

theorem varsLoop_ok (a : Adapter) (st : DbgState) (V : Nat → List DapVariable)
    (h : ∀ r, a.variablesR r = .ok (some (V r))) :
    ∀ scopes : List DapScope,
      varsLoop a st scopes
        = (.ok (((scopes.filter fun sc => sc.variablesReference != 0).map
              fun sc => (V sc.variablesReference).map toVariable).flatten),
           ((scopes.filter fun sc => sc.variablesReference != 0).map
              fun sc => issue st (.variables sc.variablesReference)).flatten) := by
  intro scopes
  induction scopes with
  | nil => rfl
  | cons sc rest ih =>
    by_cases hz : sc.variablesReference ≠ 0
    · rw [varsLoop, if_pos hz, h sc.variablesReference, ih]
      have hb : (sc.variablesReference != 0) = true := by simpa using hz
      simp [List.filter_cons, hb]
    · rw [varsLoop, if_neg hz, ih]
      have hb : (sc.variablesReference != 0) = false := by simpa using hz
      simp [List.filter_cons, hb]

/-- C6: with an active thread and an adapter answering every exchange,
`getVariables` performs `stackTrace` (active thread, top frame only:
`startFrame 0, levels 1`), then `scopes` for the returned top frame
identifier, then one `variables` request per scope with a non-zero
variable-reference, in scope order; it returns the concatenation of the
returned variable nodes in that order, and scopes with a zero reference
contribute no nodes and trigger no request. -/
theorem c6_getVariables_exchange (st : DbgState) (a : Adapter) (tid fid : Nat)
    (rest : List StackFrame) (scopes : List DapScope) (V : Nat → List DapVariable)
    (h1 : st.threadId = some tid)
    (h2 : a.stackTraceR tid = .ok (some (⟨fid⟩ :: rest)))
    (h3 : a.scopesR fid = .ok (some scopes))
    (h4 : ∀ r, a.variablesR r = .ok (some (V r))) :
    getVariablesOp st a =
      ⟨{ success := true,
         data := some (((scopes.filter fun sc => sc.variablesReference != 0).map
           fun sc => (V sc.variablesReference).map toVariable).flatten) },
        { st with frameId := some fid },
        issue st (.stackTrace tid 0 1)
          ++ issue { st with frameId := some fid } (.scopes fid)
          ++ ((scopes.filter fun sc => sc.variablesReference != 0).map
              fun sc => issue { st with frameId := some fid }
                (.variables sc.variablesReference)).flatten⟩ := by
  unfold getVariablesOp
  rw [h1]
  dsimp only
  rw [h2]
  simp only [Option.getD_some]
  rw [h3]
  simp only [Option.getD_some]
  rw [varsLoop_ok a _ V h4 scopes]

/-- C6, witness: the spec scenario yields exactly one variable node equal to
the returned entry. -/
theorem c6_getVariables_witness :
    (⟨true, some 1, none⟩ : DbgState).threadId = some 1
    ∧ (getVariablesOp ⟨true, some 1, none⟩ adapterVars).resp.data
      = some [⟨xName, xValue, some xType, none⟩] := by
  refine ⟨rfl, ?_⟩
  rw [c6_getVariables_exchange ⟨true, some 1, none⟩ adapterVars 1 1 [] [⟨100⟩]
    (fun _ => [⟨xName, xValue, some xType, none⟩]) rfl rfl rfl (fun r => rfl)]
  rfl

/-- C7: `setBreakpoint` maps each adapter breakpoint entry, in order, to a
descriptor whose file is the requested file, whose identifier defaults to the
entry's position when the adapter omits an id, and whose line defaults to the
requested line when the adapter omits one; the session state is unchanged. -/
theorem c7_setBreakpoint_mapping (st : DbgState) (a : Adapter) (cfg : SetBreakpointConfig)
    (bps : List BpEntry) (h : a.setBreakpointsR cfg.file cfg.line = .ok (some bps)) :
    (setBreakpointOp st a cfg).resp
      = { success := true, data := some (mapIdxFrom 0 (toBreakpointInfo cfg) bps) }
    ∧ (setBreakpointOp st a cfg).state = st := by
  unfold setBreakpointOp
  rw [h]
  exact ⟨rfl, rfl⟩

/-- C7, witness: the spec scenario — response `[{verified: true, line: 10}]`
for a request on `src/main.rs` line 10 — yields exactly the descriptor
`{id: 0, file: src/main.rs, line: 10, verified: true}`. -/
theorem c7_setBreakpoint_witness :
    adapterBp.setBreakpointsR mainRs 10 = .ok (some [⟨none, some 10, some true⟩])
    ∧ (setBreakpointOp ⟨true, some 1, none⟩ adapterBp ⟨mainRs, 10⟩).resp
      = { success := true, data := some [⟨0, mainRs, 10, true⟩] } := by
  refine ⟨rfl, ?_⟩
  rw [(c7_setBreakpoint_mapping ⟨true, some 1, none⟩ adapterBp ⟨mainRs, 10⟩
    [⟨none, some 10, some true⟩] rfl).1]
  rfl

/-- C8: `terminate` never fails outward: it succeeds for every adapter outcome
(disconnect errors are absorbed), the subprocess is always ended and the
handle discarded (final state has no process; with a live process the I/O is
the disconnect frame followed by the kill), terminating with no subprocess
performs no exchange, and a second consecutive terminate succeeds with no
exchange. -/
theorem c8_terminate_absorbs (st : DbgState) (a : Adapter) :
    (terminateOp st a).resp.success = true
    ∧ (terminateOp st a).state.process = false
    ∧ (st.process = true →
        (terminateOp st a).io = [IOAction.send (.disconnect true), IOAction.kill])
    ∧ (st.process = false → terminateOp st a = ⟨{ success := true }, st, []⟩)
    ∧ (terminateOp (terminateOp st a).state a).resp.success = true
    ∧ (terminateOp (terminateOp st a).state a).io = [] := by
  obtain ⟨pr, th, fr⟩ := st
  cases pr
  · refine ⟨rfl, rfl, ?_, ?_, rfl, rfl⟩
    · intro hcontra
      exact absurd hcontra (by simp)
    · intro _
      rfl
  · refine ⟨rfl, rfl, ?_, ?_, rfl, rfl⟩
    · intro _
      rfl
    · intro hcontra
      exact absurd hcontra (by simp)

/-- C8, witness: terminating a session with no subprocess returns success and
performs no exchange. -/
theorem c8_terminate_witness :
    (⟨false, none, none⟩ : DbgState).process = false
    ∧ terminateOp ⟨false, none, none⟩ adapterNone = ⟨{ success := true }, ⟨false, none, none⟩, []⟩ :=
  ⟨rfl, (c8_terminate_absorbs ⟨false, none, none⟩ adapterNone).2.2.2.1 rfl⟩

/-- C9, counterexample: the frame identifier captured by `getVariables` is
stored in the session's `frameId` field and is still there after the call
returns — and still after a subsequent `continue` — so it is persisted in the
session state across operations, contradicting the claim. -/
theorem c9_frameId_counterexample :
    (getVariablesOp ⟨true, some 1, none⟩ adapterVars).state.frameId = some 1
    ∧ (continueOp (getVariablesOp ⟨true, some 1, none⟩ adapterVars).state
        adapterVars).state.frameId = some 1 := by
  refine ⟨rfl, rfl⟩

/-- C9 (amended): the captured frame identifier is persisted — a successful
capture leaves `frameId` set to the top frame's identifier after
`getVariables` returns — but it is used only within that call: no other
operation reads it (each of `continue`, `step-over`, `set-breakpoint` and
`terminate` produces the same response and I/O whatever `frameId` holds, and
leaves `frameId` unchanged), and only `getVariables` modifies it. -/
theorem c9_frameId_amended :
    (∀ (st : DbgState) (a : Adapter) (tid fid : Nat) (rest : List StackFrame),
      st.threadId = some tid → a.stackTraceR tid = .ok (some (⟨fid⟩ :: rest)) →
      (getVariablesOp st a).state.frameId = some fid)
    ∧ (∀ (st : DbgState) (a : Adapter) (f : Option Nat),
        continueOp { st with frameId := f } a
          = ⟨(continueOp st a).resp, { (continueOp st a).state with frameId := f },
              (continueOp st a).io⟩)
    ∧ (∀ (st : DbgState) (a : Adapter) (f : Option Nat),
        stepOverOp { st with frameId := f } a
          = ⟨(stepOverOp st a).resp, { (stepOverOp st a).state with frameId := f },
              (stepOverOp st a).io⟩)
    ∧ (∀ (st : DbgState) (a : Adapter) (cfg : SetBreakpointConfig) (f : Option Nat),
        setBreakpointOp { st with frameId := f } a cfg
          = ⟨(setBreakpointOp st a cfg).resp,
              { (setBreakpointOp st a cfg).state with frameId := f },
              (setBreakpointOp st a cfg).io⟩)
    ∧ (∀ (st : DbgState) (a : Adapter) (f : Option Nat),
        terminateOp { st with frameId := f } a
          = ⟨(terminateOp st a).resp, { (terminateOp st a).state with frameId := f },
              (terminateOp st a).io⟩) := by
  refine ⟨?_, ?_, ?_, ?_, ?_⟩
  · intro st a tid fid rest h1 h2
    obtain ⟨pr, th, fr⟩ := st
    dsimp only at h1
    subst h1
    unfold getVariablesOp
    dsimp only
    rw [h2]
    simp only [Option.getD_some]
    cases a.scopesR fid with
    | err m => rfl
    | ok sbody =>
      dsimp only
      rcases varsLoop a ⟨pr, some tid, some fid⟩ (sbody.getD []) with ⟨res, tr⟩
      cases res <;> rfl
  · intro st a f
    obtain ⟨pr, th, fr⟩ := st
    unfold continueOp
    cases th with
    | none => rfl
    | some tid =>
      dsimp only
      cases a.continueR tid <;> rfl
  · intro st a f
    obtain ⟨pr, th, fr⟩ := st
    unfold stepOverOp
    cases th with
    | none => rfl
    | some tid =>
      dsimp only
      cases a.nextR tid <;> rfl
  · intro st a cfg f
    obtain ⟨pr, th, fr⟩ := st
    unfold setBreakpointOp
    cases a.setBreakpointsR cfg.file cfg.line <;> rfl
  · intro st a f
    obtain ⟨pr, th, fr⟩ := st
    unfold terminateOp
    cases pr <;> rfl

/-- C9, witness: the amended persistence clause at the concrete scenario
state. -/
theorem c9_frameId_witness :
    (⟨true, some 1, none⟩ : DbgState).threadId = some 1
    ∧ adapterVars.stackTraceR 1 = .ok (some [⟨1⟩])
    ∧ (getVariablesOp ⟨true, some 1, none⟩ adapterVars).state.frameId = some 1 :=
  ⟨rfl, rfl, c9_frameId_amended.1 ⟨true, some 1, none⟩ adapterVars 1 1 [] rfl rfl⟩

/-- C10: if the `stackTrace` exchange of `getVariables` returns an empty (or
absent) list of stack frames, the call returns success with an empty variable
sequence, leaves the state unchanged, and its only transport I/O is the
`stackTrace` request — no `scopes` and no `variables` request is sent. -/
theorem c10_empty_stack (st : DbgState) (a : Adapter) (tid : Nat)
    (body : Option (List StackFrame))
    (h1 : st.threadId = some tid) (h2 : a.stackTraceR tid = .ok body)
    (h3 : body.getD [] = []) :
    getVariablesOp st a
      = ⟨{ success := true, data := some [] }, st, issue st (.stackTrace tid 0 1)⟩ := by
  unfold getVariablesOp
  rw [h1]
  dsimp only
  rw [h2]
  dsimp only
  rw [h3]

/-- C10, witness: the empty-stack response at a concrete session state. -/
theorem c10_empty_stack_witness :
    (⟨true, some 1, none⟩ : DbgState).threadId = some 1
    ∧ adapterEmptyStack.stackTraceR 1 = .ok (some [])
    ∧ getVariablesOp ⟨true, some 1, none⟩ adapterEmptyStack
      = ⟨{ success := true, data := some [] }, ⟨true, some 1, none⟩,
          [IOAction.send (.stackTrace 1 0 1)]⟩ := by
  refine ⟨rfl, rfl, ?_⟩
  rw [c10_empty_stack ⟨true, some 1, none⟩ adapterEmptyStack 1 (some []) rfl rfl rfl]
  rfl
